import Mathlib

/-!
# Verification of the OLED display core (SSD1306 / SH1106 drivers)

Shallow embedding of the display core of the `oled-rpi-i2c-bus-async`
repository: the bit-packed framebuffer, the drawing primitives
(`drawPixel`, `drawLine`, `fillRect`, `drawRGBAImage`), the dirty-byte
flush (`_updateDirtyBytes` of the SSD1306 driver), the busy-poll wait
(`_waitUntilReady`), and the SH1106 scroll stubs.

Conventions of the embedding:
* JS numbers that hold pixel coordinates are embedded as `ℤ` (they may be
  negative); byte values and byte indices as `ℕ`.
* A Node `Buffer` is a `List ℕ` of bytes; reading out of range yields
  `undefined` (embedded as `Option.none` where the code can observe it,
  or as the value `0` where JS coerces `undefined` with `ToInt32`);
  writing out of range is a silent no-op, and an in-range write stores
  the value modulo 256 (`ToUint8`).
* The Bresenham error accumulator `err` of `drawLine` is a JS float that
  always holds an exact (half-integral) value: `(dx>dy ? dx : -dy)/2`
  and all later updates add or subtract integers.  We store `2*err` in an
  integer field `err2`, so every comparison and update of the source is
  mirrored exactly: `err > -dx ↔ err2 > -(2*dx)`, `err < dy ↔ err2 < 2*dy`,
  `err -= dy ↔ err2 := err2 - 2*dy`, `err += dx ↔ err2 := err2 + 2*dx`.
-/

/-- JS array / Buffer read with `ToInt32` coercion of `undefined` (→ 0):
`buf[i]` used in an arithmetic or bitwise context. -/
def listGet (l : List ℕ) (i : ℕ) : ℕ := l.getD i 0

/-- JS `Buffer` read at a (possibly negative) index, observed with strict
equality: out of range gives `undefined`, embedded as `none`. -/
def readJS (l : List ℕ) (i : ℤ) : Option ℕ :=
  if 0 ≤ i ∧ i < (l.length : ℤ) then some (listGet l i.toNat) else none

/-- JS `Buffer` write at a (possibly negative) index: out of range is a
silent no-op, in range stores `ToUint8(v) = v % 256`. -/
def writeJS (l : List ℕ) (i : ℤ) (v : ℕ) : List ℕ :=
  if 0 ≤ i then l.set i.toNat (v % 256) else l

/-- The JS color argument of the drawing primitives: an integer code, a
boolean, or one of the literal strings `'BLACK'` / `'WHITE'` that
`drawPixel` compares against. -/
inductive Color where
  | num (n : ℤ)
  | boolean (b : Bool)
  | black
  | white
  deriving DecidableEq

/-- JS truthiness of a `Color` value (`!color` is its negation). -/
def Color.truthy : Color → Bool
  | .num n => n ≠ 0
  | .boolean b => b
  | .black => true   -- a non-empty string is truthy
  | .white => true

/-- `color === 'BLACK'`. -/
def Color.isBlackLit : Color → Bool
  | .black => true
  | _ => false

/-- Whether `drawPixel` writes the target bit as 1 for this color:
the source clears on `color === 'BLACK' || !color` and sets otherwise. -/
def Color.bitOn (c : Color) : Bool := !(c.isBlackLit || !c.truthy)

/-- The mutable display-core state a drawing primitive touches:
`this.buffer` and `this.dirtyBytes`. -/
structure OledState where
  buffer : List ℕ
  dirtyBytes : List ℕ
  deriving DecidableEq

/-- `dirtyBytes` tracking of `drawPixel`:
`if (!this.dirtyBytes.includes(byte)) this.dirtyBytes.push(byte)`. -/
def pushDirty (dirty : List ℕ) (byte : ℕ) : List ℕ :=
  if byte ∈ dirty then dirty else dirty ++ [byte]

/-- One element of the `pixels.forEach` body of `BaseOLED.drawPixel`
(`src/unnamed/part_001`, lines 149-175; identically `part_000` lines
230-262): bounds check, byte/bit address computation, set or clear, and
dirty tracking.  The byte written back is masked to 8 bits (`Buffer`
stores `ToUint8` of the assigned value). -/
def drawPixelOne (W H : ℕ) (st : OledState) (x y : ℤ) (c : Color) : OledState :=
  if x < 0 ∨ (W : ℤ) ≤ x ∨ y < 0 ∨ (H : ℤ) ≤ y then st
  else
    let page := y.toNat / 8
    let byte := x.toNat + W * page
    let pageShift := 1 <<< (y.toNat % 8)
    let old := listGet st.buffer byte
    let v := if c.isBlackLit || !c.truthy
             then old &&& (4294967295 ^^^ pageShift)   -- buffer[byte] &= ~pageShift
             else old ||| pageShift                    -- buffer[byte] |= pageShift
    { buffer := st.buffer.set byte (v % 256),
      dirtyBytes := pushDirty st.dirtyBytes byte }

/-- `getPixel`-style observation of the packed framebuffer: bit `y % 8` of
byte `x + W * (y / 8)`. -/
def getPixel (W : ℕ) (st : OledState) (x y : ℕ) : Bool :=
  Nat.testBit (listGet st.buffer (x + W * (y / 8))) (y % 8)

/-- The `while (true)` loop of `BaseOLED.drawLine` (`src/unnamed/part_001`
lines 194-209).  `fuel` bounds the number of iterations (the source loop
terminates on reaching the endpoint); the plotted points are returned
alongside the state.  `err2` holds twice the JS `err` float, which is
exact (see the file header). -/
def bresLoop (W H : ℕ) (c : Color) (dx sx dy sy : ℤ) :
    ℕ → ℤ → ℤ → ℤ → ℤ → ℤ → OledState → OledState × List (ℤ × ℤ)
  | 0, _, _, _, _, _, st => (st, [])
  | fuel+1, x0, y0, x1, y1, err2, st =>
    let st1 := drawPixelOne W H st x0 y0 c
    if x0 = x1 ∧ y0 = y1 then (st1, [(x0, y0)])
    else
      -- const e2 = err; both conditions read e2, both updates write err
      let e2 := err2
      let err2a := if e2 > -(2*dx) then err2 - 2*dy else err2
      let x0a := if e2 > -(2*dx) then x0 + sx else x0
      let err2b := if e2 < 2*dy then err2a + 2*dx else err2a
      let y0a := if e2 < 2*dy then y0 + sy else y0
      let r := bresLoop W H c dx sx dy sy fuel x0a y0a x1 y1 err2b st1
      (r.1, (x0, y0) :: r.2)

/-- `BaseOLED.drawLine` (`src/unnamed/part_001` lines 187-214, sync path
omitted): Bresenham setup followed by the loop.  Initial `err` is
`(dx > dy ? dx : -dy) / 2`, stored doubled. -/
def drawLine (W H : ℕ) (fuel : ℕ) (st : OledState) (x0 y0 x1 y1 : ℤ) (c : Color) :
    OledState × List (ℤ × ℤ) :=
  let dx := |x1 - x0|
  let sx : ℤ := if x0 < x1 then 1 else -1
  let dy := |y1 - y0|
  let sy : ℤ := if y0 < y1 then 1 else -1
  let err2 := if dx > dy then dx else -dy
  bresLoop W H c dx sx dy sy fuel x0 y0 x1 y1 err2 st

/-- `BaseOLED.fillRect` (`src/unnamed/part_001` lines 217-226, sync path
omitted): one vertical `drawLine` from `y` to `y + h - 1` per column
`i = x, …, x + w - 1`.  The plotted points of all lines are concatenated
in drawing order. -/
def fillRect (W H : ℕ) (fuel : ℕ) (st : OledState) (x y w h : ℤ) (c : Color) :
    OledState × List (ℤ × ℤ) :=
  (List.range w.toNat).foldl
    (fun (acc : OledState × List (ℤ × ℤ)) (j : ℕ) =>
      let i := x + (j : ℤ)
      let r := drawLine W H fuel acc.1 i y i (y + h - 1) c
      (r.1, acc.2 ++ r.2))
    (st, [])

/-- Keys of a JS `Map` built by inserting `l`'s elements in order: the
distinct elements of `l` in order of first insertion (model of the
`pageGroups` map of `SSD1306._updateDirtyBytes`, `src/drivers/ssd1306.mjs`
lines 237-253). -/
def firstDedup : List ℕ → List ℕ
  | [] => []
  | a :: l => a :: (firstDedup l).filter (fun b => b ≠ a)

/-- The pages of the dirty indices, in first-insertion order:
`page = Math.floor(byteIndex / WIDTH)`. -/
def pagesOf (W : ℕ) (dirty : List ℕ) : List ℕ :=
  firstDedup (dirty.map (fun i => i / W))

/-- The `{col, byteIndex}` entries pushed for page `p`, in dirty order:
`col = byteIndex % WIDTH` (`src/drivers/ssd1306.mjs` lines 240-253). -/
def pageEntries (W : ℕ) (dirty : List ℕ) (p : ℕ) : List (ℕ × ℕ) :=
  (dirty.filter (fun i => i / W = p)).map (fun i => (i % W, i))

/-- Insert an entry into a list sorted by column. -/
def insertByCol (e : ℕ × ℕ) : List (ℕ × ℕ) → List (ℕ × ℕ)
  | [] => [e]
  | f :: l => if e.1 ≤ f.1 then e :: f :: l else f :: insertByCol e l

/-- `bytes.sort((a, b) => a.col - b.col)` (`src/drivers/ssd1306.mjs` line
258).  In every reachable call the columns are distinct, so the ascending
reordering is unique and insertion sort computes it. -/
def sortByCol : List (ℕ × ℕ) → List (ℕ × ℕ)
  | [] => []
  | e :: l => insertByCol e (sortByCol l)

/-- The range-building loop of `_updateDirtyBytes` (`src/drivers/ssd1306.mjs`
lines 261-310): state is `(currentStart, currentEnd, currentData)`; a new
entry extends the run when `col = currentEnd + 1` and otherwise flushes the
run and starts a new one; the trailing run is flushed at the end.  Each
emitted triple is `(colStart, colEnd, entries of the run in order)`. -/
def buildRanges : ℕ → ℕ → List (ℕ × ℕ) → List (ℕ × ℕ) → List (ℕ × ℕ × List (ℕ × ℕ))
  | start, cur, acc, [] => [(start, cur, acc)]
  | start, cur, acc, e :: rest =>
    if e.1 = cur + 1 then buildRanges start e.1 (acc ++ [e]) rest
    else (start, cur, acc) :: buildRanges e.1 e.1 [e] rest

/-- All ranges of one page's sorted entry list (`currentStart` starts
`null`, so the first entry always opens a run; no entries, no ranges). -/
def pageRanges : List (ℕ × ℕ) → List (ℕ × ℕ × List (ℕ × ℕ))
  | [] => []
  | e :: rest => buildRanges e.1 e.1 [e] rest

/-- One coalesced range of the incremental flush plan. -/
structure PageRange where
  page : ℕ
  colStart : ℕ
  colEnd : ℕ
  entries : List (ℕ × ℕ)    -- (col, byteIndex) pairs, in emission order
  deriving DecidableEq

/-- The ranges of one page, tagged with the page. -/
def pagePlan (W : ℕ) (dirty : List ℕ) (p : ℕ) : List PageRange :=
  (pageRanges (sortByCol (pageEntries W dirty p))).map
    (fun r => ⟨p, r.1, r.2.1, r.2.2⟩)

/-- The full incremental flush plan: pages in map-insertion order, each
page's sorted entries coalesced into runs. -/
def incrementalPlan (W : ℕ) (dirty : List ℕ) : List PageRange :=
  (pagesOf W dirty).flatMap (fun p => pagePlan W dirty p)

/-- `dirtyByteArrayLen > this.buffer.length / 7`
(`src/drivers/ssd1306.mjs` line 225).  The JS division is exact as a
rational comparison against an integer (`k > N/7 ↔ 7k > N`; the float
rounding of `N/7` never crosses an integer for any feasible `N`). -/
def shouldFullUpdate (bufLen dirtyLen : ℕ) : Bool :=
  bufLen < 7 * dirtyLen

/-- SSD1306 `COLUMN_ADDR` opcode. -/
def COLUMN_ADDR : ℕ := 0x21
/-- SSD1306 `PAGE_ADDR` opcode. -/
def PAGE_ADDR : ℕ := 0x22

/-- One transport-level transaction of a flush, as issued through
`_transferBatch` / `_transfer` / raw `i2cWrite` / `_readI2C`. -/
inductive TxOp where
  | readState : TxOp                  -- `_readI2C` during `_waitUntilReady`
  | cmdBatch (bytes : List ℕ) : TxOp  -- `_transferBatch('cmd', …)`
  | dataBatch (bytes : List ℕ) : TxOp -- `_transferBatch('data', …)`
  | writeRaw (bytes : List ℕ) : TxOp  -- raw `wire.i2cWrite` of a prepared buffer
  deriving DecidableEq

/-- The two bus transactions of one coalesced range: the addressing batch
`[COLUMN_ADDR, colStart, colEnd, PAGE_ADDR, page, page]` and the data
burst of the framebuffer bytes at the run's byte indices
(`src/drivers/ssd1306.mjs` lines 265-287). -/
def rangeOps (buf : List ℕ) (r : PageRange) : List TxOp :=
  [TxOp.cmdBatch [COLUMN_ADDR, r.colStart, r.colEnd, PAGE_ADDR, r.page, r.page],
   TxOp.dataBatch (r.entries.map (fun e => listGet buf e.2))]

/-- `SSD1306.update` (`src/drivers/ssd1306.mjs` lines 118-138): busy wait,
full-window addressing batch, then the whole framebuffer in one raw write
prefixed by the `0x40` data control byte. -/
def updateOpsSSD (W P coloffset : ℕ) (buf : List ℕ) : List TxOp :=
  [TxOp.readState,
   TxOp.cmdBatch [COLUMN_ADDR, coloffset, coloffset + W - 1, PAGE_ADDR, 0, P - 1],
   TxOp.writeRaw (0x40 :: buf)]

/-- Which branch a call of `_updateDirtyBytes` takes. -/
inductive FlushPath where
  | noop : FlushPath          -- `dirtyByteArrayLen === 0`, early return
  | full : FlushPath          -- full-frame `update()`
  | incremental : FlushPath   -- per-range partial update
  deriving DecidableEq

/-- Result of a successful `_updateDirtyBytes` call: the transactions it
issues, the `dirtyBytes` array afterwards, the branch taken, and the
framebuffer (which the flush never mutates). -/
structure FlushResult where
  ops : List TxOp
  dirtyAfter : List ℕ
  path : FlushPath
  bufferAfter : List ℕ
  deriving DecidableEq

/-- `SSD1306._updateDirtyBytes` (`src/drivers/ssd1306.mjs` lines 215-319):
early return on an empty dirty array; full `update()` past the 1/7
threshold; otherwise busy wait then the per-page, per-range partial
update.  On both non-empty branches `this.dirtyBytes = []` runs last. -/
def updateDirtyBytes (W P coloffset : ℕ) (buf dirty : List ℕ) : FlushResult :=
  if dirty.length = 0 then ⟨[], dirty, .noop, buf⟩
  else if shouldFullUpdate buf.length dirty.length then
    ⟨updateOpsSSD W P coloffset buf, [], .full, buf⟩
  else
    ⟨TxOp.readState :: (incrementalPlan W dirty).flatMap (rangeOps buf),
     [], .incremental, buf⟩

/-- Run the transactions of a flush against a transport where call number
`k` (counted from 0) succeeds iff `transport k`; returns `true` iff every
call returned (no throw). -/
def execFlush (transport : ℕ → Bool) : ℕ → List TxOp → Bool
  | _, [] => true
  | k, _ :: rest => if transport k then execFlush transport (k+1) rest else false

/-- The `dirtyBytes` array after calling `_updateDirtyBytes` against a
possibly failing transport: the reset `this.dirtyBytes = []` is the last
statement of each branch, so a throw from any `await`ed transport call
propagates out of the method before the reset runs. -/
def flushDirtyAfter (W P coloffset : ℕ) (buf dirty : List ℕ)
    (transport : ℕ → Bool) : List ℕ :=
  let r := updateDirtyBytes W P coloffset buf dirty
  if execFlush transport 0 r.ops then r.dirtyAfter else dirty

/-- The busy test of `_waitUntilReady`: `(byte >> shift) & 1`, with
`shift = 7` in `BaseOLED` / `part_000` and `shift = 6` in the SH1106
driver (`src/drivers/sh1106.mjs` line 386). -/
def busyBit (shift b : ℕ) : Bool := (b >>> shift) &&& 1 ≠ 0

/-- The recursive `tick` of `_waitUntilReady` (`src/unnamed/part_001`
lines 526-538): read status byte number `k`, return if the busy bit is
clear, else yield and recurse.  The source has no retry bound; `fuel`
only truncates the embedding: `none` means the poll is still running
after `fuel` reads. -/
def waitTick (shift : ℕ) (reads : ℕ → ℕ) : ℕ → ℕ → Option ℕ
  | 0, _ => none
  | fuel+1, k =>
    if busyBit shift (reads k) then waitTick shift reads fuel (k+1) else some k

/-- `_waitUntilReady` against the status-byte stream `reads`, observed for
`fuel` reads: `some k` means it returned after read `k` came back with
the busy bit clear; `none` means it is still polling. -/
def waitUntilReady (shift : ℕ) (reads : ℕ → ℕ) (fuel : ℕ) : Option ℕ :=
  waitTick shift reads fuel 0

/-- Result of an SH1106 scroll request: the state afterwards, the bus
transactions issued, and whether the "SH1106 does not support scrolling"
warning was logged. -/
structure ScrollResult where
  state : OledState
  ops : List TxOp
  warnedUnsupported : Bool
  deriving DecidableEq

/-- `SH1106.startScroll` (`src/drivers/sh1106.mjs` lines 68-70,
`src/unnamed/part_000` lines 102-104): logs the unsupported warning and
does nothing else — no transfer, no buffer or dirty mutation. -/
def sh1106StartScroll (st : OledState) (dir : String) (start stop : ℤ) :
    ScrollResult :=
  ⟨st, [], true⟩

/-- `SH1106.stopScroll` (`src/drivers/sh1106.mjs` lines 73-75,
`src/unnamed/part_000` lines 107-109). -/
def sh1106StopScroll (st : OledState) : ScrollResult :=
  ⟨st, [], true⟩

/-- An RGBA image as consumed by `drawRGBAImage`: `data` is the flat
4-bytes-per-pixel array. -/
structure Image where
  width : ℕ
  height : ℕ
  data : List ℕ
  deriving DecidableEq

/-- Alpha channel of source pixel `(x, y)`:
`image.data[((imageWidth * y) + x) << 2) + 3]`. -/
def rgbaAlpha (img : Image) (x y : ℕ) : ℕ :=
  listGet img.data (4 * (img.width * y + x) + 3)

/-- `R | G | B` of source pixel `(x, y)`. -/
def rgbaBit (img : Image) (x y : ℕ) : ℕ :=
  listGet img.data (4 * (img.width * y + x)) |||
  listGet img.data (4 * (img.width * y + x) + 1) |||
  listGet img.data (4 * (img.width * y + x) + 2)

/-- `dirtySet.add(buffIndex)` of `drawRGBAImage` (a JS `Set`, so the
index is recorded once). -/
def dirtyAdd (dirty : List ℤ) (i : ℤ) : List ℤ :=
  if i ∈ dirty then dirty else dirty ++ [i]

/-- The per-column loop state of `drawRGBAImage`: the buffer, the dirty
set, `buffIndex` and `buffByte` (`buffByte` is `none` while it holds
`undefined`, i.e. after an out-of-range initial read). -/
structure ColState where
  buf : List ℕ
  dirty : List ℤ
  bi : ℤ
  bb : Option ℕ
  deriving DecidableEq

/-- One iteration of the row loop of `BaseOLED.drawRGBAImage`
(`src/unnamed/part_001` lines 305-339): skip off-screen rows; at a page
boundary save the previous accumulated byte if it changed and load the
byte of the new page; skip fully transparent pixels; otherwise set or
clear the pixel's bit in the accumulator.  Bit operations coerce an
`undefined` accumulator with `ToInt32` (→ 0). -/
def colStep (W H : ℕ) (img : Image) (dx dy : ℤ) (x : ℕ)
    (s : ColState) (y : ℕ) : ColState :=
  let dyy := dy + (y : ℤ)
  if dyy < 0 ∨ (H : ℤ) ≤ dyy then s
  else
    let dyyp := dyy / 8
    let s1 :=
      if dyy % 8 = 0 then
        let changed := (x ≠ 0 ∨ y ≠ 0) ∧ s.bb ≠ readJS s.buf s.bi
        let buf1 := if changed then writeJS s.buf s.bi (s.bb.getD 0) else s.buf
        let dirty1 := if changed then dirtyAdd s.dirty s.bi else s.dirty
        let bi1 := dx + (x : ℤ) + (W : ℤ) * dyyp
        { buf := buf1, dirty := dirty1, bi := bi1, bb := readJS buf1 bi1 }
      else s
    if rgbaAlpha img x y = 0 then s1
    else
      let pixelByte := 1 <<< (dyy % 8).toNat
      let bb2 := if rgbaBit img x y ≠ 0
                 then (s1.bb.getD 0) ||| pixelByte
                 else (s1.bb.getD 0) &&& (4294967295 ^^^ pixelByte)
      { s1 with bb := some bb2 }

/-- The pixel-processing tail of one `colStep` iteration (the part after
the page-boundary bookkeeping): skip a transparent pixel, otherwise set
or clear its bit in the accumulator. -/
def pixelPhase (H : ℕ) (img : Image) (dy : ℤ) (x y : ℕ) (S1 : ColState) : ColState :=
  if rgbaAlpha img x y = 0 then S1
  else
    let pixelByte := 1 <<< ((dy + (y : ℤ)) % 8).toNat
    let bb2 := if rgbaBit img x y ≠ 0
               then (S1.bb.getD 0) ||| pixelByte
               else (S1.bb.getD 0) &&& (4294967295 ^^^ pixelByte)
    { S1 with bb := some bb2 }

/-- End of one column of `drawRGBAImage` (`src/unnamed/part_001` lines
341-345): save the accumulator if it differs from the stored byte. -/
def colFinish (s : ColState) : List ℕ × List ℤ :=
  if s.bb ≠ readJS s.buf s.bi
  then (writeJS s.buf s.bi (s.bb.getD 0), dirtyAdd s.dirty s.bi)
  else (s.buf, s.dirty)

/-- One column of `drawRGBAImage`: initial `buffIndex = x + dxyp` with
`dxyp = WIDTH * Math.floor(dy / 8) + dx`, the row loop, then the final
save. -/
def colLoop (W H : ℕ) (img : Image) (dx dy : ℤ) (x : ℕ)
    (buf : List ℕ) (dirty : List ℤ) : List ℕ × List ℤ :=
  let bi0 := (x : ℤ) + ((W : ℤ) * (dy / 8) + dx)
  let s0 : ColState := ⟨buf, dirty, bi0, readJS buf bi0⟩
  colFinish ((List.range img.height).foldl (colStep W H img dx dy x) s0)

/-- The column loop state after the first `k` rows (invariant support;
`colLoop` is `colFinish` of this at `k = img.height`). -/
def colRun (W H : ℕ) (img : Image) (dx dy : ℤ) (x : ℕ)
    (buf : List ℕ) (dirty : List ℤ) (k : ℕ) : ColState :=
  (List.range k).foldl (colStep W H img dx dy x)
    ⟨buf, dirty, (x : ℤ) + ((W : ℤ) * (dy / 8) + dx),
     readJS buf ((x : ℤ) + ((W : ℤ) * (dy / 8) + dx))⟩

/-- `BaseOLED.drawRGBAImage` (`src/unnamed/part_001` lines 286-358, sync
path omitted): column by column, skipping columns whose destination
`dx + x` is off screen; returns the new framebuffer and the collected
dirty set. -/
def drawRGBAImage (W H : ℕ) (buf : List ℕ) (img : Image) (dx dy : ℤ) :
    List ℕ × List ℤ :=
  (List.range img.width).foldl
    (fun acc (x : ℕ) =>
      if dx + (x : ℤ) < 0 ∨ (W : ℤ) ≤ dx + (x : ℤ) then acc
      else colLoop W H img dx dy x acc.1 acc.2)
    (buf, [])

/-- The outer column fold of `drawRGBAImage` after the first `t`
columns (`drawRGBAImage` is this at `t = img.width`). -/
def colsRun (W H : ℕ) (buf : List ℕ) (img : Image) (dx dy : ℤ) (t : ℕ) :
    List ℕ × List ℤ :=
  (List.range t).foldl
    (fun (acc : List ℕ × List ℤ) (x : ℕ) =>
      if dx + (x : ℤ) < 0 ∨ (W : ℤ) ≤ dx + (x : ℤ) then acc
      else colLoop W H img dx dy x acc.1 acc.2)
    (buf, [])

/-- Set (`on = true`) or clear (`on = false`) bit `b` of `v`, as the
row loop of `drawRGBAImage` does on its accumulator. -/
def pixelMod (isOn : Bool) (b v : ℕ) : ℕ :=
  if isOn then v ||| (1 <<< b) else v &&& (4294967295 ^^^ (1 <<< b))

/-- Invariant support: one row's conditional set/clear on the byte
accumulator of page `p` of column `x`. -/
def rowMod (H : ℕ) (img : Image) (dx dy : ℤ) (x : ℕ) (p : ℤ) (w : ℕ) (y : ℕ) : ℕ :=
  let dyy := dy + (y : ℤ)
  if 0 ≤ dyy ∧ dyy < (H : ℤ) ∧ dyy / 8 = p ∧ rgbaAlpha img x y ≠ 0 then
    pixelMod (rgbaBit img x y ≠ 0) (dyy % 8).toNat w
  else w

/-- Invariant support: the accumulated effect of the given image rows on
the byte of page `p` of column `x` — every on-screen, non-transparent
row that lands on page `p` sets or clears its bit. -/
def applyRowMods (H : ℕ) (img : Image) (dx dy : ℤ) (x : ℕ) (p : ℤ)
    (rows : List ℕ) (v : ℕ) : ℕ :=
  rows.foldl (rowMod H img dx dy x p) v

/-- The accumulated effect of the first `k` rows. -/
def applyColMods (H : ℕ) (img : Image) (dx dy : ℤ) (x : ℕ) (p : ℤ)
    (k : ℕ) (v : ℕ) : ℕ :=
  applyRowMods H img dx dy x p (List.range k) v

/-- Invariant support: the page `buffIndex` points into after the first
`k` rows — the page of the last on-screen row processed, or
`Math.floor(dy / 8)` before any row was. -/
def openPage (H : ℕ) (dy : ℤ) : ℕ → ℤ
  | 0 => dy / 8
  | k+1 =>
    if 0 ≤ dy + (k : ℤ) ∧ dy + (k : ℤ) < (H : ℤ) then (dy + (k : ℤ)) / 8
    else openPage H dy k

/-- Invariant support: whether some on-screen row among the first `k`
lands on page `p`. -/
def touchesPage (H : ℕ) (dy : ℤ) (k : ℕ) (p : ℤ) : Bool :=
  (List.range k).any
    (fun y => decide (0 ≤ dy + (y : ℤ) ∧ dy + (y : ℤ) < (H : ℤ) ∧ (dy + (y : ℤ)) / 8 = p))

/-- The loop invariant of one `drawRGBAImage` column, after `k` rows:
`buffIndex` points at the open page; `buffByte` holds the accumulated
byte of the open page (`none` iff the open page is off screen, i.e.
`undefined`); and the buffer differs from the start-of-column buffer
exactly on the already-closed touched pages of this column. -/
def ColInv (W H : ℕ) (img : Image) (dx dy : ℤ) (x : ℕ) (buf₀ : List ℕ)
    (k : ℕ) (R : ColState) : Prop :=
  R.bi = dx + (x : ℤ) + (W : ℤ) * openPage H dy k ∧
  R.buf.length = buf₀.length ∧
  ((0 ≤ openPage H dy k ∧ openPage H dy k < ((H / 8 : ℕ) : ℤ)) →
    R.bb = some (applyColMods H img dx dy x (openPage H dy k) k
        (listGet buf₀ (dx + (x : ℤ) + (W : ℤ) * openPage H dy k).toNat))) ∧
  (¬(0 ≤ openPage H dy k ∧ openPage H dy k < ((H / 8 : ℕ) : ℤ)) → R.bb = none) ∧
  (∀ j : ℕ, j < buf₀.length →
    listGet R.buf j =
      if j % W = (dx + (x : ℤ)).toNat ∧ ((j / W : ℕ) : ℤ) < openPage H dy k ∧
          touchesPage H dy k ((j / W : ℕ) : ℤ) = true
      then applyColMods H img dx dy x ((j / W : ℕ) : ℤ) k (listGet buf₀ j)
      else listGet buf₀ j)

/-! ## Helper lemmas: list reads/writes and bit operations -/

theorem listGet_set_self (l : List ℕ) (i v : ℕ) (h : i < l.length) :
    listGet (l.set i v) i = v := by
  simp [listGet, List.getD, List.getElem?_set, h]

theorem listGet_set_other (l : List ℕ) (i j v : ℕ) (h : i ≠ j) :
    listGet (l.set i v) j = listGet l j := by
  simp [listGet, List.getD, List.getElem?_set, h]

theorem listGet_set_oob (l : List ℕ) (i v : ℕ) (h : l.length ≤ i) :
    l.set i v = l :=
  List.set_eq_of_length_le h

theorem mask32_eq : (4294967295 : ℕ) = 2 ^ 32 - 1 := by norm_num

theorem testBit_mod256 (v b : ℕ) (hb : b < 8) :
    Nat.testBit (v % 256) b = Nat.testBit v b := by
  have : (256 : ℕ) = 2 ^ 8 := by norm_num
  rw [this, Nat.testBit_mod_two_pow]
  simp [hb]

theorem testBit_or_self (v b : ℕ) :
    Nat.testBit (v ||| (1 <<< b)) b = true := by
  simp [Nat.testBit_or, Nat.shiftLeft_eq, Nat.testBit_two_pow_self]

theorem testBit_or_other (v b q : ℕ) (hne : q ≠ b) :
    Nat.testBit (v ||| (1 <<< b)) q = Nat.testBit v q := by
  simp [Nat.testBit_or, Nat.shiftLeft_eq, Nat.testBit_two_pow, (Ne.symm hne)]

theorem testBit_and_mask_self (v b : ℕ) (hb : b < 32) :
    Nat.testBit (v &&& (4294967295 ^^^ (1 <<< b))) b = false := by
  rw [Nat.testBit_and, mask32_eq, Nat.testBit_xor, Nat.shiftLeft_eq, one_mul,
    Nat.testBit_two_pow_sub_one, Nat.testBit_two_pow_self]
  simp [hb]

theorem testBit_and_mask_other (v b q : ℕ) (hq : q < 32) (hne : q ≠ b) :
    Nat.testBit (v &&& (4294967295 ^^^ (1 <<< b))) q = Nat.testBit v q := by
  rw [Nat.testBit_and, mask32_eq, Nat.testBit_xor, Nat.shiftLeft_eq, one_mul,
    Nat.testBit_two_pow_sub_one, Nat.testBit_two_pow]
  simp [hq, Ne.symm hne]

/-! ## Pixel-level lemmas -/

theorem byteIndex_lt (W H x p : ℕ) (hx : x < W) (hp : p < H / 8) :
    x + W * p < W * (H / 8) := by
  have h1 : W * (p + 1) ≤ W * (H / 8) := Nat.mul_le_mul_left W (Nat.succ_le_of_lt hp)
  rw [Nat.mul_succ] at h1
  omega

theorem page_lt (H y : ℕ) (hy : y < H) (h8 : H % 8 = 0) : y / 8 < H / 8 :=
  Nat.div_lt_div_of_lt_of_dvd (Nat.dvd_of_mod_eq_zero h8) hy

theorem cond_eq_not_bitOn (c : Color) : (c.isBlackLit || !c.truthy) = !c.bitOn := by
  simp [Color.bitOn]

theorem getPixel_drawPixelOne_self (W H : ℕ) (st : OledState) (x y : ℤ) (c : Color)
    (hx0 : 0 ≤ x) (hxW : x < (W : ℤ)) (hy0 : 0 ≤ y) (hyH : y < (H : ℤ))
    (h8 : H % 8 = 0) (hlen : st.buffer.length = W * (H / 8)) :
    getPixel W (drawPixelOne W H st x y c) x.toNat y.toNat = c.bitOn := by
  have hnot : ¬(x < 0 ∨ (W : ℤ) ≤ x ∨ y < 0 ∨ (H : ℤ) ≤ y) := by omega
  have hxW' : x.toNat < W := by omega
  have hyH' : y.toNat < H := by omega
  have hidx : x.toNat + W * (y.toNat / 8) < st.buffer.length := by
    rw [hlen]; exact byteIndex_lt W H _ _ hxW' (page_lt H _ hyH' h8)
  have hb : y.toNat % 8 < 8 := Nat.mod_lt _ (by norm_num)
  rw [drawPixelOne, if_neg hnot]
  simp only [getPixel]
  rw [listGet_set_self _ _ _ hidx, testBit_mod256 _ _ hb, cond_eq_not_bitOn]
  cases hc : c.bitOn
  · simpa using testBit_and_mask_self (listGet st.buffer _) _ (by omega)
  · simpa using testBit_or_self (listGet st.buffer _) _

theorem getPixel_drawPixelOne_other (W H : ℕ) (st : OledState) (x y : ℤ) (c : Color)
    (a b : ℕ) (haW : a < W) (hbH : b < H)
    (hne : (a : ℤ) ≠ x ∨ (b : ℤ) ≠ y) :
    getPixel W (drawPixelOne W H st x y c) a b = getPixel W st a b := by
  rw [drawPixelOne]
  by_cases hoob : x < 0 ∨ (W : ℤ) ≤ x ∨ y < 0 ∨ (H : ℤ) ≤ y
  · rw [if_pos hoob]
  · rw [if_neg hoob]
    push_neg at hoob
    obtain ⟨hx0, hxW, hy0, hyH⟩ := hoob
    simp only [getPixel]
    have hq8 : b % 8 < 8 := Nat.mod_lt _ (by norm_num)
    by_cases hidx : a + W * (b / 8) = x.toNat + W * (y.toNat / 8)
    case neg => rw [listGet_set_other _ _ _ _ (fun h => hidx h.symm)]
    case pos =>
      have hWpos : 0 < W := by omega
      have hxW' : x.toNat < W := by omega
      have hax : a = x.toNat := by
        have h1 : (a + W * (b / 8)) % W = a % W := Nat.add_mul_mod_self_left a W _
        have h2 : (x.toNat + W * (y.toNat / 8)) % W = x.toNat % W :=
          Nat.add_mul_mod_self_left _ W _
        rw [hidx, h2, Nat.mod_eq_of_lt hxW'] at h1
        rw [Nat.mod_eq_of_lt haW] at h1
        omega
      have hmul : W * (b / 8) = W * (y.toNat / 8) := by
        have h' := hidx
        rw [hax] at h'
        exact Nat.add_left_cancel h'
      have hpage : b / 8 = y.toNat / 8 := Nat.eq_of_mul_eq_mul_left hWpos hmul
      have hby : b ≠ y.toNat := by
        rcases hne with h | h
        · exact absurd (by omega : (a : ℤ) = x) h
        · intro hb
          exact h (by omega)
      have hbit : b % 8 ≠ y.toNat % 8 := by omega
      by_cases hl : x.toNat + W * (y.toNat / 8) < st.buffer.length
      · rw [hidx, listGet_set_self _ _ _ hl, testBit_mod256 _ _ hq8]
        by_cases hcond : (c.isBlackLit || !c.truthy) = true
        · rw [if_pos hcond, testBit_and_mask_other _ _ _ (by omega) hbit]
        · rw [if_neg (by simpa using hcond), testBit_or_other _ _ _ hbit]
      · rw [listGet_set_oob _ _ _ (by omega)]

/-! ## C3 / C4: `drawPixel` -/

/-- C3: For every coordinate (x,y) with x < 0, x ≥ W, y < 0, or y ≥ H,
and every color value, `drawPixel` leaves every byte of the framebuffer
unchanged, adds no index to the dirty set, and completes without raising
an error (the embedded function is total and returns the state it was
given). -/
theorem drawPixel_out_of_range_noop (W H : ℕ) (st : OledState) (x y : ℤ) (c : Color)
    (h : x < 0 ∨ (W : ℤ) ≤ x ∨ y < 0 ∨ (H : ℤ) ≤ y) :
    drawPixelOne W H st x y c = st := by
  rw [drawPixelOne, if_pos h]

theorem drawPixel_out_of_range_noop_witness :
    ((128 : ℤ) < 0 ∨ (128 : ℤ) ≤ 128 ∨ (10 : ℤ) < 0 ∨ (64 : ℤ) ≤ 10) ∧
      drawPixelOne 128 64 ⟨List.replicate 1024 0, []⟩ 128 10 (Color.num 1)
        = ⟨List.replicate 1024 0, []⟩ :=
  ⟨Or.inr (Or.inl (by decide)),
   drawPixel_out_of_range_noop 128 64 ⟨List.replicate 1024 0, []⟩ 128 10 (Color.num 1)
     (Or.inr (Or.inl (by decide)))⟩

/-- C4: For every in-range pixel (x,y), `drawPixel` clears the target
framebuffer bit (bit `y % 8` of byte `x + W * (y / 8)`) when the supplied
color is falsy/zero and sets it for any truthy/nonzero value; integer
codes and boolean values are both accepted (`hc` excludes only the
`'BLACK'` string literal, whose special case clears regardless). -/
theorem drawPixel_in_range_bit (W H : ℕ) (st : OledState) (x y : ℤ) (c : Color)
    (hx0 : 0 ≤ x) (hxW : x < (W : ℤ)) (hy0 : 0 ≤ y) (hyH : y < (H : ℤ))
    (h8 : H % 8 = 0) (hlen : st.buffer.length = W * (H / 8))
    (hc : c.isBlackLit = false) :
    getPixel W (drawPixelOne W H st x y c) x.toNat y.toNat = c.truthy := by
  have h1 := getPixel_drawPixelOne_self W H st x y c hx0 hxW hy0 hyH h8 hlen
  rwa [show c.bitOn = c.truthy by simp [Color.bitOn, hc]] at h1

theorem drawPixel_in_range_bit_witness :
    ((0 : ℤ) ≤ 1 ∧ (1 : ℤ) < 4 ∧ (0 : ℤ) ≤ 5 ∧ (5 : ℤ) < 8 ∧ 8 % 8 = 0 ∧
        (⟨List.replicate 4 0, []⟩ : OledState).buffer.length = 4 * (8 / 8) ∧
        (Color.num 3).isBlackLit = false) ∧
      getPixel 4 (drawPixelOne 4 8 ⟨List.replicate 4 0, []⟩ 1 5 (Color.num 3)) 1 5
        = (Color.num 3).truthy :=
  ⟨by decide,
   drawPixel_in_range_bit 4 8 ⟨List.replicate 4 0, []⟩ 1 5 (Color.num 3)
     (by decide) (by decide) (by decide) (by decide) (by decide) (by decide) (by decide)⟩

/-! ## C9: SH1106 scroll requests -/

/-- C9: On the SH1106 (page-addressed) variant, every `startScroll` /
`stopScroll` call logs the "does not support scrolling" warning (a
reported no-op, not a silent success), issues zero bus transactions, and
leaves the framebuffer and dirty set unchanged. -/
theorem sh1106_scroll_unsupported_noop (st : OledState) (dir : String) (start stop : ℤ) :
    (sh1106StartScroll st dir start stop).ops = [] ∧
    (sh1106StartScroll st dir start stop).state = st ∧
    (sh1106StartScroll st dir start stop).warnedUnsupported = true ∧
    (sh1106StopScroll st).ops = [] ∧
    (sh1106StopScroll st).state = st ∧
    (sh1106StopScroll st).warnedUnsupported = true :=
  ⟨rfl, rfl, rfl, rfl, rfl, rfl⟩

/-! ## C5: the busy poll is unbounded -/

theorem waitTick_always_busy (shift : ℕ) (reads : ℕ → ℕ)
    (h : ∀ j, busyBit shift (reads j) = true) :
    ∀ fuel k, waitTick shift reads fuel k = none := by
  intro fuel
  induction fuel with
  | zero => intro k; rfl
  | succ n ih => intro k; rw [waitTick, if_pos (h k)]; exact ih (k+1)

theorem waitTick_first_clear (shift : ℕ) (reads : ℕ → ℕ) (k : ℕ)
    (hk : busyBit shift (reads k) = false)
    (hmin : ∀ j < k, busyBit shift (reads j) = true) :
    ∀ fuel k0, k0 ≤ k → k < k0 + fuel → waitTick shift reads fuel k0 = some k := by
  intro fuel
  induction fuel with
  | zero => intro k0 h1 h2; omega
  | succ n ih =>
    intro k0 h1 h2
    by_cases hke : k0 = k
    · subst hke; rw [waitTick, if_neg (by simp [hk])]
    · rw [waitTick, if_pos (hmin k0 (by omega))]
      exact ih (k0+1) (by omega) (by omega)

/-- C5 counterexample: against a status stream whose busy bit (bit 7)
never clears, `_waitUntilReady` is still polling after 1000 status reads
and has surfaced no timeout error — there is no retry bound anywhere in
the code, so no "configurable maximum number of retries" exists. -/
theorem waitUntilReady_no_bound_1000 :
    waitUntilReady 7 (fun _ => 128) 1000 = none :=
  waitTick_always_busy 7 (fun _ => 128) (fun _ => (by decide : busyBit 7 128 = true)) 1000 0

/-- C5 (amended): `_waitUntilReady` recurses without bound: on a stream
whose busy bit never clears it is still polling after any number of
reads (it never raises a timeout error), and it returns — without
error — exactly after the first read whose busy bit is clear.  `shift`
is 7 for the base driver and 6 for the SH1106 driver. -/
theorem waitUntilReady_unbounded (shift : ℕ) (reads : ℕ → ℕ) :
    ((∀ j, busyBit shift (reads j) = true) →
        ∀ fuel, waitUntilReady shift reads fuel = none) ∧
    (∀ k, busyBit shift (reads k) = false →
        (∀ j < k, busyBit shift (reads j) = true) →
        ∀ fuel, k < fuel → waitUntilReady shift reads fuel = some k) :=
  ⟨fun h fuel => waitTick_always_busy shift reads h fuel 0,
   fun k hk hmin fuel hf =>
     waitTick_first_clear shift reads k hk hmin fuel 0 (Nat.zero_le k) (by omega)⟩

theorem waitUntilReady_unbounded_witness :
    waitUntilReady 6 (fun n => if n < 2 then 64 else 0) 5 = some 2 :=
  (waitUntilReady_unbounded 6 (fun n => if n < 2 then 64 else 0)).2 2
    (by decide) (by decide) 5 (by decide)

/-! ## C6: Bresenham diagonal -/

/-- C6: `drawLine` runs the exact symmetric-Bresenham loop of the source
(plot, stop at the endpoint, `err > -dx` / `err < dy` steps from
`err = (dx>dy ? dx : -dy)/2`), and in particular `drawLine(0,0,5,5,on)`
on a cleared 8×8 framebuffer plots exactly
`(0,0),(1,1),(2,2),(3,3),(4,4),(5,5)` in order and sets exactly those
pixels and no others. -/
theorem drawLine_diagonal_exact :
    (drawLine 8 8 32 ⟨List.replicate 8 0, []⟩ 0 0 5 5 (Color.num 1)).2
      = [(0,0),(1,1),(2,2),(3,3),(4,4),(5,5)] ∧
    ((List.range 8).all fun x => (List.range 8).all fun y =>
      getPixel 8 (drawLine 8 8 32 ⟨List.replicate 8 0, []⟩ 0 0 5 5 (Color.num 1)).1 x y
        == (decide (x = y) && decide (x ≤ 5))) = true := by
  constructor
  · decide
  · decide

/-! ## C10: zero-height `fillRect` -/

theorem bresLoop_vertical_pair (W H fuel : ℕ) (st : OledState) (i y : ℤ) (c : Color) :
    bresLoop W H c 0 (-1) 1 (-1) (fuel + 2) i y i (y - 1) (-1) st =
      (drawPixelOne W H (drawPixelOne W H st i y c) i (y - 1) c, [(i, y), (i, y - 1)]) := by
  rw [show fuel + 2 = (fuel + 1) + 1 by ring, bresLoop]
  rw [if_neg (by omega : ¬(i = i ∧ y = y - 1))]
  norm_num
  rw [bresLoop, if_pos ⟨rfl, rfl⟩]
  constructor
  · rfl
  · constructor <;> omega

theorem drawLine_vertical_pair (W H fuel : ℕ) (st : OledState) (i y : ℤ) (c : Color) :
    drawLine W H (fuel + 2) st i y i (y - 1) c =
      (drawPixelOne W H (drawPixelOne W H st i y c) i (y - 1) c, [(i, y), (i, y - 1)]) := by
  have hdx : |i - i| = 0 := by simp
  have hdy : |y - 1 - y| = 1 := by
    rw [show y - 1 - y = -1 by ring]
    norm_num
  rw [drawLine]
  simp only [hdx, hdy]
  rw [if_neg (lt_irrefl i), if_neg (by omega : ¬(y < y - 1)),
    if_neg (by norm_num : ¬((0 : ℤ) > 1))]
  exact bresLoop_vertical_pair W H fuel st i y c

theorem drawPixelOne_buffer_length (W H : ℕ) (st : OledState) (x y : ℤ) (c : Color) :
    (drawPixelOne W H st x y c).buffer.length = st.buffer.length := by
  rw [drawPixelOne]
  by_cases h : x < 0 ∨ (W : ℤ) ≤ x ∨ y < 0 ∨ (H : ℤ) ≤ y
  · rw [if_pos h]
  · rw [if_neg h]
    simp [List.length_set]


theorem fillRect_succ_col (W H fuel : ℕ) (st : OledState) (x y h : ℤ) (c : Color) (n : ℕ) :
    fillRect W H fuel st x y ((n : ℤ) + 1) h c =
      ((drawLine W H fuel (fillRect W H fuel st x y (n : ℤ) h c).1
          (x + (n : ℤ)) y (x + (n : ℤ)) (y + h - 1) c).1,
       (fillRect W H fuel st x y (n : ℤ) h c).2 ++
         (drawLine W H fuel (fillRect W H fuel st x y (n : ℤ) h c).1
           (x + (n : ℤ)) y (x + (n : ℤ)) (y + h - 1) c).2) := by
  rw [fillRect, fillRect]
  rw [show ((n : ℤ) + 1).toNat = n + 1 by omega, show ((n : ℤ)).toNat = n by omega]
  rw [List.range_succ, List.foldl_append]
  rfl

/-- C10: a zero-height `fillRect` is not a no-op.  Columns `x … x+w-1`
are each drawn as a vertical line from `y` to `y + 0 - 1 = y - 1`, and
the Bresenham loop always plots both endpoints, so `fillRect(x,y,w,0,c)`
plots exactly the pixels `(i, y), (i, y-1)` for `i ∈ [x, x+w)` (in that
order) and — when those pixels are on screen — applies the color to
both of them. -/
theorem fillRect_zero_height (W H fuel : ℕ) (st : OledState) (x y w : ℤ) (c : Color)
    (hw : 1 ≤ w) (hfuel : 2 ≤ fuel)
    (hx0 : 0 ≤ x) (hxw : x + w ≤ (W : ℤ)) (hy1 : 1 ≤ y) (hyH : y < (H : ℤ))
    (h8 : H % 8 = 0) (hlen : st.buffer.length = W * (H / 8)) :
    (fillRect W H fuel st x y w 0 c).2
      = (List.range w.toNat).flatMap (fun j => [(x + (j : ℤ), y), (x + (j : ℤ), y - 1)]) ∧
    (∀ j < w.toNat,
      getPixel W (fillRect W H fuel st x y w 0 c).1 (x + (j : ℤ)).toNat y.toNat = c.bitOn ∧
      getPixel W (fillRect W H fuel st x y w 0 c).1 (x + (j : ℤ)).toNat (y - 1).toNat
        = c.bitOn) := by
  obtain ⟨k, rfl⟩ : ∃ k, fuel = k + 2 := ⟨fuel - 2, by omega⟩
  have hy0 : 0 ≤ y := by omega
  have hy10 : 0 ≤ y - 1 := by omega
  have hy1H : y - 1 < (H : ℤ) := by omega
  have main : ∀ n : ℕ, (n : ℤ) ≤ w →
      ((fillRect W H (k + 2) st x y (n : ℤ) 0 c).2
        = (List.range n).flatMap (fun j => [(x + (j : ℤ), y), (x + (j : ℤ), y - 1)])) ∧
      ((fillRect W H (k + 2) st x y (n : ℤ) 0 c).1.buffer.length = W * (H / 8)) ∧
      (∀ j < n,
        getPixel W (fillRect W H (k + 2) st x y (n : ℤ) 0 c).1 (x + (j : ℤ)).toNat y.toNat
          = c.bitOn ∧
        getPixel W (fillRect W H (k + 2) st x y (n : ℤ) 0 c).1 (x + (j : ℤ)).toNat
          (y - 1).toNat = c.bitOn) := by
    intro n
    induction n with
    | zero =>
      intro _
      refine ⟨rfl, by simpa [fillRect] using hlen, ?_⟩
      intro j hj
      omega
    | succ n ih =>
      intro hn
      obtain ⟨ih1, ih2, ih3⟩ := ih (by omega)
      have hcast : ((n + 1 : ℕ) : ℤ) = (n : ℤ) + 1 := by omega
      rw [hcast, fillRect_succ_col, show y + 0 - 1 = y - 1 by ring,
        drawLine_vertical_pair W H k _ (x + (n : ℤ)) y c]
      have hxn0 : 0 ≤ x + (n : ℤ) := by omega
      have hxnW : x + (n : ℤ) < (W : ℤ) := by omega
      refine ⟨?_, ?_, ?_⟩
      · simp only [ih1, List.range_succ, List.flatMap_append]
        simp
      · simp only [drawPixelOne_buffer_length, ih2]
      · intro j hj
        by_cases hjn : j = n
        · subst hjn
          constructor
          · rw [getPixel_drawPixelOne_other W H _ _ _ c _ _ (by omega) (by omega)
                  (Or.inr (by omega))]
            exact getPixel_drawPixelOne_self W H _ _ y c hxn0 hxnW hy0 hyH h8 ih2
          · exact getPixel_drawPixelOne_self W H _ _ (y - 1) c hxn0 hxnW hy10 hy1H h8
              (by rw [drawPixelOne_buffer_length]; exact ih2)
        · have hj' : j < n := by omega
          obtain ⟨hp1, hp2⟩ := ih3 j hj'
          have hne1 : ((x + (j : ℤ)).toNat : ℤ) ≠ x + (n : ℤ) := by omega
          refine ⟨?_, ?_⟩
          · rw [getPixel_drawPixelOne_other W H _ _ _ c _ _ (by omega) (by omega)
                  (Or.inl hne1),
                getPixel_drawPixelOne_other W H _ _ _ c _ _ (by omega) (by omega)
                  (Or.inl hne1)]
            exact hp1
          · rw [getPixel_drawPixelOne_other W H _ _ _ c _ _ (by omega) (by omega)
                  (Or.inl hne1),
                getPixel_drawPixelOne_other W H _ _ _ c _ _ (by omega) (by omega)
                  (Or.inl hne1)]
            exact hp2
  have hwcast : ((w.toNat : ℤ)) = w := by omega
  obtain ⟨m1, _, m3⟩ := main w.toNat (by omega)
  rw [hwcast] at m1 m3
  exact ⟨m1, m3⟩

theorem fillRect_zero_height_witness :
    ((1 : ℤ) ≤ 2 ∧ 2 ≤ 2 ∧ (0 : ℤ) ≤ 2 ∧ (2 : ℤ) + 2 ≤ 8 ∧ (1 : ℤ) ≤ 3 ∧ (3 : ℤ) < 8 ∧
        8 % 8 = 0 ∧ (⟨List.replicate 8 0, []⟩ : OledState).buffer.length = 8 * (8 / 8)) ∧
      ((fillRect 8 8 2 ⟨List.replicate 8 0, []⟩ 2 3 2 0 (Color.num 1)).2
          = (List.range (2 : ℤ).toNat).flatMap
              (fun j => [((2 : ℤ) + (j : ℤ), 3), ((2 : ℤ) + (j : ℤ), 3 - 1)]) ∧
        (∀ j < (2 : ℤ).toNat,
          getPixel 8 (fillRect 8 8 2 ⟨List.replicate 8 0, []⟩ 2 3 2 0 (Color.num 1)).1
              ((2 : ℤ) + (j : ℤ)).toNat (3 : ℤ).toNat = (Color.num 1).bitOn ∧
          getPixel 8 (fillRect 8 8 2 ⟨List.replicate 8 0, []⟩ 2 3 2 0 (Color.num 1)).1
              ((2 : ℤ) + (j : ℤ)).toNat ((3 : ℤ) - 1).toNat = (Color.num 1).bitOn)) :=
  ⟨by decide,
   fillRect_zero_height 8 8 2 ⟨List.replicate 8 0, []⟩ 2 3 2 (Color.num 1)
     (by decide) (by decide) (by decide) (by decide) (by decide) (by decide)
     (by decide) (by decide)⟩

/-! ## C1 / C2: coalescing machinery -/

theorem range'_concat (s n : ℕ) : List.range' s (n + 1) = List.range' s n ++ [s + n] := by
  induction n generalizing s with
  | zero => simp [List.range']
  | succ m ih =>
    have hadd : s + 1 + m = s + (m + 1) := by omega
    rw [show List.range' s (m + 1 + 1) = s :: List.range' (s+1) (m+1) from rfl, ih (s+1),
      show List.range' s (m + 1) = s :: List.range' (s+1) m from rfl, hadd]
    simp

theorem buildRanges_flatten (l : List (ℕ × ℕ)) :
    ∀ (start cur : ℕ) (acc : List (ℕ × ℕ)),
      ((buildRanges start cur acc l).flatMap (fun r => r.2.2)) = acc ++ l := by
  induction l with
  | nil => intro start cur acc; simp [buildRanges]
  | cons e rest ih =>
    intro start cur acc
    rw [buildRanges]
    by_cases h : e.1 = cur + 1
    · rw [if_pos h, ih]
      simp
    · rw [if_neg h]
      simp only [List.flatMap_cons, ih]
      simp

theorem buildRanges_head (l : List (ℕ × ℕ)) :
    ∀ (start cur : ℕ) (acc : List (ℕ × ℕ)),
      ∃ ce en tl, buildRanges start cur acc l = (start, ce, en) :: tl := by
  induction l with
  | nil => intro start cur acc; exact ⟨cur, acc, [], rfl⟩
  | cons e rest ih =>
    intro start cur acc
    rw [buildRanges]
    by_cases h : e.1 = cur + 1
    · rw [if_pos h]; exact ih start e.1 (acc ++ [e])
    · rw [if_neg h]; exact ⟨cur, acc, _, rfl⟩

theorem buildRanges_runs (l : List (ℕ × ℕ)) :
    ∀ (start cur : ℕ) (acc : List (ℕ × ℕ)),
      acc.map Prod.fst = List.range' start (cur + 1 - start) → start ≤ cur →
      ∀ r ∈ buildRanges start cur acc l,
        r.2.2.map Prod.fst = List.range' r.1 (r.2.1 + 1 - r.1) ∧ r.1 ≤ r.2.1 := by
  induction l with
  | nil =>
    intro start cur acc hacc hsc r hr
    rw [buildRanges] at hr
    simp at hr
    subst hr
    exact ⟨hacc, hsc⟩
  | cons e rest ih =>
    intro start cur acc hacc hsc r hr
    rw [buildRanges] at hr
    by_cases h : e.1 = cur + 1
    · rw [if_pos h] at hr
      refine ih start e.1 (acc ++ [e]) ?_ (by omega) r hr
      rw [List.map_append, hacc, h]
      rw [show cur + 1 + 1 - start = (cur + 1 - start) + 1 by omega, range'_concat]
      have : start + (cur + 1 - start) = cur + 1 := by omega
      rw [this]
      simp [h]
    · rw [if_neg h] at hr
      rcases List.mem_cons.mp hr with hr | hr
      · subst hr; exact ⟨hacc, hsc⟩
      · refine ih e.1 e.1 [e] ?_ le_rfl r hr
        simp [List.range']

theorem buildRanges_chain (l : List (ℕ × ℕ)) :
    ∀ (start cur : ℕ) (acc : List (ℕ × ℕ)),
      List.Chain' (fun r₁ r₂ : ℕ × ℕ × List (ℕ × ℕ) => r₂.1 ≠ r₁.2.1 + 1)
        (buildRanges start cur acc l) := by
  induction l with
  | nil => intro start cur acc; simp [buildRanges]
  | cons e rest ih =>
    intro start cur acc
    rw [buildRanges]
    by_cases h : e.1 = cur + 1
    · rw [if_pos h]; exact ih start e.1 (acc ++ [e])
    · rw [if_neg h]
      rw [List.chain'_cons']
      refine ⟨?_, ih e.1 e.1 [e]⟩
      intro b hb
      obtain ⟨ce, en, tl, heq⟩ := buildRanges_head rest e.1 e.1 [e]
      rw [heq] at hb
      simp at hb
      subst hb
      simpa using h

theorem pageRanges_flatten (l : List (ℕ × ℕ)) :
    (pageRanges l).flatMap (fun r => r.2.2) = l := by
  cases l with
  | nil => rfl
  | cons e rest => rw [pageRanges, buildRanges_flatten]; rfl

theorem pageRanges_runs (l : List (ℕ × ℕ)) :
    ∀ r ∈ pageRanges l,
      r.2.2.map Prod.fst = List.range' r.1 (r.2.1 + 1 - r.1) ∧ r.1 ≤ r.2.1 := by
  cases l with
  | nil => intro r hr; simp [pageRanges] at hr
  | cons e rest =>
    rw [pageRanges]
    exact buildRanges_runs rest e.1 e.1 [e] (by simp [List.range']) le_rfl

theorem pageRanges_chain (l : List (ℕ × ℕ)) :
    List.Chain' (fun r₁ r₂ : ℕ × ℕ × List (ℕ × ℕ) => r₂.1 ≠ r₁.2.1 + 1) (pageRanges l) := by
  cases l with
  | nil => simp [pageRanges]
  | cons e rest => rw [pageRanges]; exact buildRanges_chain rest e.1 e.1 [e]

theorem mem_insertByCol (e a : ℕ × ℕ) (l : List (ℕ × ℕ)) :
    a ∈ insertByCol e l ↔ a = e ∨ a ∈ l := by
  induction l with
  | nil => simp [insertByCol]
  | cons f rest ih =>
    rw [insertByCol]
    by_cases h : e.1 ≤ f.1
    · rw [if_pos h]; simp
    · rw [if_neg h]
      simp only [List.mem_cons, ih]
      tauto

theorem insertByCol_perm (e : ℕ × ℕ) (l : List (ℕ × ℕ)) :
    List.Perm (insertByCol e l) (e :: l) := by
  induction l with
  | nil => simp [insertByCol]
  | cons f rest ih =>
    rw [insertByCol]
    by_cases h : e.1 ≤ f.1
    · rw [if_pos h]
    · rw [if_neg h]
      exact List.Perm.trans (List.Perm.cons f ih) (List.Perm.swap e f rest)

theorem sortByCol_perm (l : List (ℕ × ℕ)) : List.Perm (sortByCol l) l := by
  induction l with
  | nil => simp [sortByCol]
  | cons e rest ih =>
    rw [sortByCol]
    exact List.Perm.trans (insertByCol_perm e (sortByCol rest)) (List.Perm.cons e ih)

theorem insertByCol_pairwise (e : ℕ × ℕ) (l : List (ℕ × ℕ))
    (h : List.Pairwise (fun a b : ℕ × ℕ => a.1 ≤ b.1) l) :
    List.Pairwise (fun a b : ℕ × ℕ => a.1 ≤ b.1) (insertByCol e l) := by
  induction l with
  | nil => simp [insertByCol]
  | cons f rest ih =>
    rw [insertByCol]
    rcases List.pairwise_cons.mp h with ⟨hf, hrest⟩
    by_cases hef : e.1 ≤ f.1
    · rw [if_pos hef]
      refine List.pairwise_cons.mpr ⟨?_, h⟩
      intro b hb
      rcases List.mem_cons.mp hb with hb | hb
      · subst hb; exact hef
      · exact le_trans hef (hf b hb)
    · rw [if_neg hef]
      refine List.pairwise_cons.mpr ⟨?_, ih hrest⟩
      intro b hb
      rcases (mem_insertByCol e b rest).mp hb with hb | hb
      · subst hb; omega
      · exact hf b hb

theorem sortByCol_pairwise (l : List (ℕ × ℕ)) :
    List.Pairwise (fun a b : ℕ × ℕ => a.1 ≤ b.1) (sortByCol l) := by
  induction l with
  | nil => simp [sortByCol]
  | cons e rest ih => rw [sortByCol]; exact insertByCol_pairwise e _ ih

theorem mem_firstDedup (a : ℕ) (l : List ℕ) : a ∈ firstDedup l ↔ a ∈ l := by
  induction l with
  | nil => simp [firstDedup]
  | cons b rest ih =>
    rw [firstDedup]
    simp only [List.mem_cons, List.mem_filter]
    constructor
    · rintro (h | ⟨h, _⟩)
      · exact Or.inl h
      · exact Or.inr (ih.mp h)
    · rintro (h | h)
      · exact Or.inl h
      · by_cases hab : a = b
        · exact Or.inl hab
        · exact Or.inr ⟨ih.mpr h, by simpa using hab⟩

theorem firstDedup_nodup (l : List ℕ) : (firstDedup l).Nodup := by
  induction l with
  | nil => simp [firstDedup]
  | cons b rest ih =>
    rw [firstDedup]
    refine List.nodup_cons.mpr ⟨?_, List.Nodup.filter _ ih⟩
    intro h
    have := List.mem_filter.mp h
    simp at this

theorem pageEntries_map_snd (W : ℕ) (dirty : List ℕ) (p : ℕ) :
    (pageEntries W dirty p).map Prod.snd = dirty.filter (fun i => i / W = p) := by
  rw [pageEntries, List.map_map]
  rw [show (Prod.snd ∘ fun i : ℕ => (i % W, i)) = id from rfl, List.map_id]

theorem mem_pageEntries (W : ℕ) (dirty : List ℕ) (p : ℕ) (e : ℕ × ℕ)
    (he : e ∈ pageEntries W dirty p) :
    e.2 ∈ dirty ∧ e.2 / W = p ∧ e.1 = e.2 % W := by
  rw [pageEntries] at he
  obtain ⟨i, hi, rfl⟩ := List.mem_map.mp he
  obtain ⟨hmem, hp⟩ := List.mem_filter.mp hi
  exact ⟨hmem, of_decide_eq_true hp, rfl⟩

theorem flatMap_congr_mem {α β : Type} (ps : List α) (f g : α → List β)
    (h : ∀ p ∈ ps, f p = g p) : ps.flatMap f = ps.flatMap g := by
  induction ps with
  | nil => rfl
  | cons p rest ih =>
    simp only [List.flatMap_cons]
    rw [h p (List.mem_cons_self p rest), ih (fun q hq => h q (List.mem_cons_of_mem p hq))]

theorem perm_flatMap_right {α β : Type} (ps : List α) (f g : α → List β)
    (h : ∀ p ∈ ps, List.Perm (f p) (g p)) :
    List.Perm (ps.flatMap f) (ps.flatMap g) := by
  induction ps with
  | nil => simp
  | cons p rest ih =>
    simp only [List.flatMap_cons]
    exact List.Perm.append (h p (List.mem_cons_self p rest))
      (ih (fun q hq => h q (List.mem_cons_of_mem p hq)))

theorem filter_of_filter_ne (f : ℕ → ℕ) (l : List ℕ) (p q : ℕ) (hpq : q ≠ p) :
    l.filter (fun i => f i = q) =
      (l.filter (fun i => ¬ f i = p)).filter (fun i => f i = q) := by
  rw [List.filter_filter]
  apply List.filter_congr
  intro i _
  by_cases h : f i = q
  · simp [h, hpq]
  · simp [h]

theorem flatMap_filter_perm (f : ℕ → ℕ) (ps : List ℕ) :
    ∀ l : List ℕ, ps.Nodup → (∀ i ∈ l, f i ∈ ps) →
      List.Perm (ps.flatMap (fun p => l.filter (fun i => f i = p))) l := by
  induction ps with
  | nil =>
    intro l _ hall
    cases l with
    | nil => simp
    | cons a rest => exact absurd (hall a (List.mem_cons_self a rest)) (by simp)
  | cons p rest ih =>
    intro l hnd hall
    rcases List.nodup_cons.mp hnd with ⟨hp, hndrest⟩
    simp only [List.flatMap_cons]
    have hsub : rest.flatMap (fun q => l.filter (fun i => f i = q)) =
        rest.flatMap (fun q => (l.filter (fun i => ¬ f i = p)).filter (fun i => f i = q)) := by
      apply flatMap_congr_mem
      intro q hq
      exact filter_of_filter_ne f l p q (fun h => hp (h ▸ hq))
    rw [hsub]
    have hperm2 : List.Perm
        (rest.flatMap (fun q => (l.filter (fun i => ¬ f i = p)).filter (fun i => f i = q)))
        (l.filter (fun i => ¬ f i = p)) := by
      apply ih
      · exact hndrest
      · intro i hi
        rcases List.mem_filter.mp hi with ⟨hil, hine⟩
        rcases List.mem_cons.mp (hall i hil) with h | h
        · exact absurd (decide_eq_true (p := f i = p) h) (by simpa using hine)
        · exact h
    refine List.Perm.trans (List.Perm.append_left _ hperm2) ?_
    have := List.filter_append_perm (fun i => decide (f i = p)) l
    refine List.Perm.trans ?_ this
    apply List.Perm.append_left
    apply List.Perm.of_eq
    apply List.filter_congr
    intro i _
    simp

theorem pagePlan_covered (W : ℕ) (dirty : List ℕ) (p : ℕ) :
    (pagePlan W dirty p).flatMap (fun r => r.entries.map Prod.snd)
      = (sortByCol (pageEntries W dirty p)).map Prod.snd := by
  rw [pagePlan, List.flatMap_map]
  have h1 : (fun r : ℕ × ℕ × List (ℕ × ℕ) =>
      (PageRange.mk p r.1 r.2.1 r.2.2).entries.map Prod.snd)
      = fun r : ℕ × ℕ × List (ℕ × ℕ) => r.2.2.map Prod.snd := rfl
  rw [h1, ← List.map_flatMap, pageRanges_flatten]

theorem pagePlan_covered_perm (W : ℕ) (dirty : List ℕ) (p : ℕ) :
    List.Perm ((pagePlan W dirty p).flatMap (fun r => r.entries.map Prod.snd))
      (dirty.filter (fun i => i / W = p)) := by
  rw [pagePlan_covered, ← pageEntries_map_snd]
  exact List.Perm.map Prod.snd (sortByCol_perm _)

theorem incrementalPlan_covered (W : ℕ) (dirty : List ℕ) :
    List.Perm ((incrementalPlan W dirty).flatMap (fun r => r.entries.map Prod.snd))
      dirty := by
  rw [incrementalPlan, List.flatMap_assoc]
  refine List.Perm.trans
    (perm_flatMap_right _ _ (fun p => dirty.filter (fun i => i / W = p))
      (fun p _ => pagePlan_covered_perm W dirty p)) ?_
  apply flatMap_filter_perm
  · exact firstDedup_nodup _
  · intro i hi
    rw [pagesOf, mem_firstDedup]
    exact List.mem_map.mpr ⟨i, hi, rfl⟩

theorem mem_incrementalPlan (W : ℕ) (dirty : List ℕ) (r : PageRange)
    (hr : r ∈ incrementalPlan W dirty) :
    ∃ rr ∈ pageRanges (sortByCol (pageEntries W dirty r.page)),
      r = ⟨r.page, rr.1, rr.2.1, rr.2.2⟩ := by
  rw [incrementalPlan] at hr
  obtain ⟨p, _, hpr⟩ := List.mem_flatMap.mp hr
  rw [pagePlan] at hpr
  obtain ⟨rr, hrr, rfl⟩ := List.mem_map.mp hpr
  exact ⟨rr, hrr, rfl⟩

theorem incrementalPlan_entries (W : ℕ) (dirty : List ℕ) (hW : 0 < W)
    (r : PageRange) (hr : r ∈ incrementalPlan W dirty) (e : ℕ × ℕ)
    (he : e ∈ r.entries) :
    e.2 ∈ dirty ∧ e.2 = r.page * W + e.1 ∧ e.1 < W := by
  obtain ⟨rr, hrr, hreq⟩ := mem_incrementalPlan W dirty r hr
  have he' : e ∈ sortByCol (pageEntries W dirty r.page) := by
    rw [← pageRanges_flatten (sortByCol (pageEntries W dirty r.page))]
    apply List.mem_flatMap.mpr
    refine ⟨rr, hrr, ?_⟩
    have : r.entries = rr.2.2 := by rw [hreq]
    rwa [this] at he
  have he2 : e ∈ pageEntries W dirty r.page :=
    (sortByCol_perm _).mem_iff.mp he'
  obtain ⟨hd, hdiv, hcol⟩ := mem_pageEntries W dirty r.page e he2
  refine ⟨hd, ?_, ?_⟩
  · rw [hcol, ← hdiv]
    conv_lhs => rw [← Nat.div_add_mod e.2 W]
    ring
  · rw [hcol]; exact Nat.mod_lt _ hW

theorem incrementalPlan_runs (W : ℕ) (dirty : List ℕ) (r : PageRange)
    (hr : r ∈ incrementalPlan W dirty) :
    r.entries.map Prod.fst = List.range' r.colStart (r.colEnd + 1 - r.colStart) ∧
    r.colStart ≤ r.colEnd := by
  obtain ⟨rr, hrr, hreq⟩ := mem_incrementalPlan W dirty r hr
  have h := pageRanges_runs (sortByCol (pageEntries W dirty r.page)) rr hrr
  rw [hreq]
  exact h

theorem pagePlan_cols (W : ℕ) (dirty : List ℕ) (p : ℕ) :
    (pagePlan W dirty p).flatMap (fun r => r.entries.map Prod.fst)
      = (sortByCol (pageEntries W dirty p)).map Prod.fst := by
  rw [pagePlan, List.flatMap_map]
  have h1 : (fun r : ℕ × ℕ × List (ℕ × ℕ) =>
      (PageRange.mk p r.1 r.2.1 r.2.2).entries.map Prod.fst)
      = fun r : ℕ × ℕ × List (ℕ × ℕ) => r.2.2.map Prod.fst := rfl
  rw [h1, ← List.map_flatMap, pageRanges_flatten]

theorem pageEntries_cols_nodup (W : ℕ) (dirty : List ℕ) (p : ℕ)
    (hW : 0 < W) (hnd : dirty.Nodup) :
    ((pageEntries W dirty p).map Prod.fst).Nodup := by
  rw [pageEntries, List.map_map]
  have h1 : (Prod.fst ∘ fun i : ℕ => (i % W, i)) = fun i : ℕ => i % W := rfl
  rw [h1]
  apply List.Nodup.map_on ?_ (hnd.filter _)
  intro i hi j hj hmod
  have hip := of_decide_eq_true (List.mem_filter.mp hi).2
  have hjp := of_decide_eq_true (List.mem_filter.mp hj).2
  have h2 : W * (i / W) + i % W = W * (j / W) + j % W := by
    rw [hip, hjp, hmod]
  rw [Nat.div_add_mod, Nat.div_add_mod] at h2
  exact h2

theorem pagePlan_cols_sorted (W : ℕ) (dirty : List ℕ) (p : ℕ)
    (hW : 0 < W) (hnd : dirty.Nodup) :
    List.Pairwise (· < ·)
      ((pagePlan W dirty p).flatMap (fun r => r.entries.map Prod.fst)) := by
  rw [pagePlan_cols]
  have hle : List.Pairwise (· ≤ ·) ((sortByCol (pageEntries W dirty p)).map Prod.fst) :=
    List.pairwise_map.mpr (sortByCol_pairwise _)
  have hnodup : ((sortByCol (pageEntries W dirty p)).map Prod.fst).Nodup := by
    refine List.Nodup.perm (pageEntries_cols_nodup W dirty p hW hnd) ?_
    exact (List.Perm.map Prod.fst (sortByCol_perm _)).symm
  exact (hle.and hnodup).imp (fun h => lt_of_le_of_ne h.1 h.2)

theorem pagePlan_chain (W : ℕ) (dirty : List ℕ) (p : ℕ) :
    List.Chain' (fun r₁ r₂ : PageRange => r₂.colStart ≠ r₁.colEnd + 1)
      (pagePlan W dirty p) := by
  rw [pagePlan]
  rw [List.chain'_map]
  exact pageRanges_chain _

/-- C2: For every set of distinct dirty byte indices at or below the
full-update threshold, the incremental flush groups the indices by page
(`idx / W`), sorts each page's entries by column ascending, and emits one
addressing batch plus one data burst per maximal run of strictly
consecutive columns; the transmitted (page, column, data) triples cover
every marked index exactly once — `byteIndex = page * W + col`, no
duplicate, no missing — and each data byte is the framebuffer byte at
that index. -/
theorem flush_incremental_coalescing (W P coloffset : ℕ) (buf dirty : List ℕ)
    (hW : 0 < W) (hnd : dirty.Nodup) (hne : dirty ≠ [])
    (hthr : 7 * dirty.length ≤ buf.length) :
    (updateDirtyBytes W P coloffset buf dirty).path = .incremental ∧
    List.Perm ((incrementalPlan W dirty).flatMap (fun r => r.entries.map Prod.snd))
      dirty ∧
    (∀ r ∈ incrementalPlan W dirty,
      (r.entries.map Prod.fst = List.range' r.colStart (r.colEnd + 1 - r.colStart) ∧
        r.colStart ≤ r.colEnd) ∧
      (∀ e ∈ r.entries, e.2 ∈ dirty ∧ e.2 = r.page * W + e.1 ∧ e.1 < W) ∧
      rangeOps buf r =
        [TxOp.cmdBatch [COLUMN_ADDR, r.colStart, r.colEnd, PAGE_ADDR, r.page, r.page],
         TxOp.dataBatch (r.entries.map (fun e => listGet buf (r.page * W + e.1)))]) ∧
    (∀ p : ℕ, List.Pairwise (· < ·)
        ((pagePlan W dirty p).flatMap (fun r => r.entries.map Prod.fst)) ∧
      List.Chain' (fun r₁ r₂ : PageRange => r₂.colStart ≠ r₁.colEnd + 1)
        (pagePlan W dirty p)) := by
  refine ⟨?_, incrementalPlan_covered W dirty, ?_, ?_⟩
  · rw [updateDirtyBytes, if_neg (by simpa using hne), if_neg (by
      simp only [shouldFullUpdate, decide_eq_true_eq]
      omega)]
  · intro r hr
    refine ⟨incrementalPlan_runs W dirty r hr, ?_, ?_⟩
    · intro e he
      exact incrementalPlan_entries W dirty hW r hr e he
    · rw [rangeOps]
      have hdata : r.entries.map (fun e => listGet buf e.2)
          = r.entries.map (fun e => listGet buf (r.page * W + e.1)) := by
        apply List.map_congr_left
        intro e he
        obtain ⟨_, heq, _⟩ := incrementalPlan_entries W dirty hW r hr e he
        rw [← heq]
      rw [hdata]
  · intro p
    exact ⟨pagePlan_cols_sorted W dirty p hW hnd, pagePlan_chain W dirty p⟩

theorem flush_incremental_coalescing_witness :
    (0 < 7 ∧ ([1, 2, 10, 24] : List ℕ).Nodup ∧ ([1, 2, 10, 24] : List ℕ) ≠ [] ∧
        7 * ([1, 2, 10, 24] : List ℕ).length ≤ (List.range 28).length) ∧
      ((updateDirtyBytes 7 4 0 (List.range 28) [1, 2, 10, 24]).path = .incremental ∧
        List.Perm ((incrementalPlan 7 [1, 2, 10, 24]).flatMap
            (fun r => r.entries.map Prod.snd)) [1, 2, 10, 24] ∧
        (∀ r ∈ incrementalPlan 7 [1, 2, 10, 24],
          (r.entries.map Prod.fst = List.range' r.colStart (r.colEnd + 1 - r.colStart) ∧
            r.colStart ≤ r.colEnd) ∧
          (∀ e ∈ r.entries, e.2 ∈ [1, 2, 10, 24] ∧ e.2 = r.page * 7 + e.1 ∧ e.1 < 7) ∧
          rangeOps (List.range 28) r =
            [TxOp.cmdBatch [COLUMN_ADDR, r.colStart, r.colEnd, PAGE_ADDR, r.page, r.page],
             TxOp.dataBatch (r.entries.map
               (fun e => listGet (List.range 28) (r.page * 7 + e.1)))]) ∧
        (∀ p : ℕ, List.Pairwise (· < ·)
            ((pagePlan 7 [1, 2, 10, 24] p).flatMap (fun r => r.entries.map Prod.fst)) ∧
          List.Chain' (fun r₁ r₂ : PageRange => r₂.colStart ≠ r₁.colEnd + 1)
            (pagePlan 7 [1, 2, 10, 24] p))) :=
  ⟨by decide,
   flush_incremental_coalescing 7 4 0 (List.range 28) [1, 2, 10, 24]
     (by decide) (by decide) (by decide) (by decide)⟩

/-- C1: with `N = W*H/8` framebuffer bytes, a flush of exactly
`⌊N/7⌋ + 1` distinct dirty indices takes the full-frame path while
`⌊N/7⌋` dirty indices take the incremental per-range path; either way the
byte transmitted for a dirty index `i` is the framebuffer byte at `i`
(the full path streams the whole buffer behind the `0x40` control byte,
the incremental path transmits exactly the pairs `(i, buf[i])`), and the
dirty set is cleared afterwards. -/
theorem flush_threshold_paths (W P coloffset : ℕ) (buf dirty : List ℕ)
    (hbuf : buf.length = W * P) (h7 : 7 ≤ W * P) (hnd : dirty.Nodup) :
    (dirty.length = W * P / 7 + 1 →
      (updateDirtyBytes W P coloffset buf dirty).path = .full ∧
      (updateDirtyBytes W P coloffset buf dirty).dirtyAfter = [] ∧
      TxOp.writeRaw (0x40 :: buf) ∈ (updateDirtyBytes W P coloffset buf dirty).ops ∧
      (∀ i ∈ dirty, listGet (0x40 :: buf) (i + 1) = listGet buf i)) ∧
    (dirty.length = W * P / 7 →
      (updateDirtyBytes W P coloffset buf dirty).path = .incremental ∧
      (updateDirtyBytes W P coloffset buf dirty).dirtyAfter = [] ∧
      List.Perm
        ((incrementalPlan W dirty).flatMap
          (fun r => r.entries.map (fun e => (e.2, listGet buf e.2))))
        (dirty.map (fun i => (i, listGet buf i)))) := by
  constructor
  · intro hlen
    have hfull : shouldFullUpdate buf.length dirty.length = true := by
      simp only [shouldFullUpdate, hbuf, hlen, decide_eq_true_eq]
      omega
    rw [updateDirtyBytes, if_neg (by omega), if_pos hfull]
    refine ⟨rfl, rfl, ?_, ?_⟩
    · rw [updateOpsSSD]; simp
    · intro i _
      rfl
  · intro hlen
    have hne : ¬ dirty.length = 0 := by omega
    have hninc : ¬ shouldFullUpdate buf.length dirty.length = true := by
      simp only [shouldFullUpdate, hbuf, hlen, decide_eq_true_eq]
      omega
    rw [updateDirtyBytes, if_neg hne, if_neg hninc]
    refine ⟨rfl, rfl, ?_⟩
    have hmaps : (incrementalPlan W dirty).flatMap
        (fun r => r.entries.map (fun e => (e.2, listGet buf e.2)))
        = ((incrementalPlan W dirty).flatMap (fun r => r.entries.map Prod.snd)).map
            (fun i => (i, listGet buf i)) := by
      rw [List.map_flatMap]
      apply flatMap_congr_mem
      intro r _
      rw [List.map_map]
      rfl
    rw [hmaps]
    exact List.Perm.map _ (incrementalPlan_covered W dirty)

theorem flush_threshold_paths_witness :
    ((List.range 14).length = 7 * 2 ∧ 7 ≤ 7 * 2 ∧ ([9, 1] : List ℕ).Nodup) ∧
      ((([9, 1] : List ℕ).length = 7 * 2 / 7 + 1 →
        (updateDirtyBytes 7 2 0 (List.range 14) [9, 1]).path = .full ∧
        (updateDirtyBytes 7 2 0 (List.range 14) [9, 1]).dirtyAfter = [] ∧
        TxOp.writeRaw (0x40 :: List.range 14) ∈
          (updateDirtyBytes 7 2 0 (List.range 14) [9, 1]).ops ∧
        (∀ i ∈ ([9, 1] : List ℕ),
          listGet (0x40 :: List.range 14) (i + 1) = listGet (List.range 14) i)) ∧
      (([9, 1] : List ℕ).length = 7 * 2 / 7 →
        (updateDirtyBytes 7 2 0 (List.range 14) [9, 1]).path = .incremental ∧
        (updateDirtyBytes 7 2 0 (List.range 14) [9, 1]).dirtyAfter = [] ∧
        List.Perm
          ((incrementalPlan 7 [9, 1]).flatMap
            (fun r => r.entries.map (fun e => (e.2, listGet (List.range 14) e.2))))
          (([9, 1] : List ℕ).map (fun i => (i, listGet (List.range 14) i))))) :=
  ⟨by decide,
   flush_threshold_paths 7 2 0 (List.range 14) [9, 1] (by decide) (by decide) (by decide)⟩

/-! ## C8: transport failure aborts the flush without clearing the dirty set -/

theorem execFlush_false (transport : ℕ → Bool) :
    ∀ (ops : List TxOp) (k : ℕ),
      (∃ j, j < ops.length ∧ transport (k + j) = false) →
      execFlush transport k ops = false := by
  intro ops
  induction ops with
  | nil =>
    intro k h
    obtain ⟨j, hj, _⟩ := h
    simp at hj
  | cons o rest ih =>
    intro k h
    rw [execFlush]
    by_cases hk : transport k = true
    · rw [if_pos hk]
      obtain ⟨j, hj, hjf⟩ := h
      cases j with
      | zero => rw [Nat.add_zero] at hjf; rw [hjf] at hk; cases hk
      | succ j' =>
        exact ih (k + 1) ⟨j', by simpa using hj, by
          rw [show k + 1 + j' = k + (j' + 1) by omega]; exact hjf⟩
    · rw [if_neg hk]

/-- C8: if any transport call of a flush fails — on either the
incremental or the full-update path — the flush aborts before the final
`this.dirtyBytes = []` reset: the dirty set still contains every pending
byte index (it is the unchanged `dirty` array), and the framebuffer
keeps its already-mutated in-memory contents (`_updateDirtyBytes` never
writes `this.buffer`), so a retry can re-flush exactly the pending
bytes. -/
theorem flush_failure_keeps_dirty (W P coloffset : ℕ) (buf dirty : List ℕ)
    (transport : ℕ → Bool)
    (hfail : ∃ j, j < (updateDirtyBytes W P coloffset buf dirty).ops.length ∧
      transport j = false) :
    flushDirtyAfter W P coloffset buf dirty transport = dirty ∧
    (updateDirtyBytes W P coloffset buf dirty).bufferAfter = buf := by
  constructor
  · rw [flushDirtyAfter]
    show (if execFlush transport 0 (updateDirtyBytes W P coloffset buf dirty).ops
        then (updateDirtyBytes W P coloffset buf dirty).dirtyAfter else dirty) = dirty
    rw [if_neg]
    rw [execFlush_false transport _ 0 (by simpa using hfail)]
    decide
  · rw [updateDirtyBytes]
    by_cases h1 : dirty.length = 0
    · rw [if_pos h1]
    · rw [if_neg h1]
      by_cases h2 : shouldFullUpdate buf.length dirty.length = true
      · rw [if_pos h2]
      · rw [if_neg h2]

theorem flush_failure_keeps_dirty_witness :
    (∃ j, j < (updateDirtyBytes 7 1 0 (List.range 7) [2]).ops.length ∧
        (fun _ : ℕ => false) j = false) ∧
      (flushDirtyAfter 7 1 0 (List.range 7) [2] (fun _ => false) = [2] ∧
        (updateDirtyBytes 7 1 0 (List.range 7) [2]).bufferAfter = List.range 7) :=
  ⟨⟨0, by decide, rfl⟩,
   flush_failure_keeps_dirty 7 1 0 (List.range 7) [2] (fun _ => false)
     ⟨0, by decide, rfl⟩⟩

/-! ## C7: helper lemmas for the RGBA column invariant -/

theorem pixelMod_testBit_self (isOn : Bool) (b v : ℕ) (hb : b < 32) :
    Nat.testBit (pixelMod isOn b v) b = isOn := by
  rw [pixelMod]
  cases isOn
  · rw [if_neg (by simp)]
    exact testBit_and_mask_self v b hb
  · rw [if_pos rfl]
    exact testBit_or_self v b

theorem pixelMod_testBit_other (isOn : Bool) (b v q : ℕ) (hq : q < 32) (hne : q ≠ b) :
    Nat.testBit (pixelMod isOn b v) q = Nat.testBit v q := by
  rw [pixelMod]
  cases isOn
  · rw [if_neg (by simp)]
    exact testBit_and_mask_other v b q hq hne
  · rw [if_pos rfl]
    exact testBit_or_other v b q hne

theorem pixelMod_lt_256 (isOn : Bool) (b v : ℕ) (hb : b < 8) (hv : v < 256) :
    pixelMod isOn b v < 256 := by
  rw [pixelMod]
  cases isOn
  · rw [if_neg (by simp)]
    exact lt_of_le_of_lt (Nat.and_le_left) hv
  · rw [if_pos rfl]
    have h1 : (1 <<< b) < 256 := by
      rw [Nat.shiftLeft_eq, one_mul]
      calc 2 ^ b ≤ 2 ^ 7 := Nat.pow_le_pow_right (by norm_num) (by omega)
        _ < 256 := by norm_num
    have := Nat.or_lt_two_pow (n := 8) (by simpa using hv) (by simpa using h1)
    simpa using this

theorem rowMod_lt_256 (H : ℕ) (img : Image) (dx dy : ℤ) (x : ℕ) (p : ℤ)
    (w y : ℕ) (hw : w < 256) : rowMod H img dx dy x p w y < 256 := by
  rw [rowMod]
  by_cases h : 0 ≤ dy + (y : ℤ) ∧ dy + (y : ℤ) < (H : ℤ) ∧ (dy + (y : ℤ)) / 8 = p ∧
      rgbaAlpha img x y ≠ 0
  · rw [if_pos h]
    refine pixelMod_lt_256 _ _ _ ?_ hw
    have h1 : (0 : ℤ) ≤ (dy + (y : ℤ)) % 8 := Int.emod_nonneg _ (by norm_num)
    have h2 : (dy + (y : ℤ)) % 8 < 8 := Int.emod_lt_of_pos _ (by norm_num)
    omega
  · rw [if_neg h]
    exact hw

theorem applyRowMods_append (H : ℕ) (img : Image) (dx dy : ℤ) (x : ℕ) (p : ℤ)
    (rows₁ rows₂ : List ℕ) (v : ℕ) :
    applyRowMods H img dx dy x p (rows₁ ++ rows₂) v
      = applyRowMods H img dx dy x p rows₂ (applyRowMods H img dx dy x p rows₁ v) := by
  simp [applyRowMods, List.foldl_append]

theorem applyColMods_succ (H : ℕ) (img : Image) (dx dy : ℤ) (x : ℕ) (p : ℤ)
    (k v : ℕ) :
    applyColMods H img dx dy x p (k + 1) v
      = rowMod H img dx dy x p (applyColMods H img dx dy x p k v) k := by
  rw [applyColMods, applyColMods, List.range_succ, applyRowMods_append]
  simp [applyRowMods]

theorem applyRowMods_lt_256 (H : ℕ) (img : Image) (dx dy : ℤ) (x : ℕ) (p : ℤ)
    (rows : List ℕ) (v : ℕ) (hv : v < 256) :
    applyRowMods H img dx dy x p rows v < 256 := by
  induction rows generalizing v with
  | nil => exact hv
  | cons y rest ih =>
    rw [applyRowMods, List.foldl_cons]
    exact ih _ (rowMod_lt_256 H img dx dy x p v y hv)

theorem applyRowMods_testBit_untouched (H : ℕ) (img : Image) (dx dy : ℤ) (x : ℕ)
    (p : ℤ) (q : ℕ) (hq : q < 32) (rows : List ℕ) (v : ℕ)
    (h : ∀ y ∈ rows, 0 ≤ dy + (y : ℤ) → dy + (y : ℤ) < (H : ℤ) →
      (dy + (y : ℤ)) / 8 = p → rgbaAlpha img x y ≠ 0 → ((dy + (y : ℤ)) % 8).toNat ≠ q) :
    Nat.testBit (applyRowMods H img dx dy x p rows v) q = Nat.testBit v q := by
  induction rows generalizing v with
  | nil => rfl
  | cons y rest ih =>
    rw [applyRowMods, List.foldl_cons]
    rw [show List.foldl (rowMod H img dx dy x p) (rowMod H img dx dy x p v y) rest
      = applyRowMods H img dx dy x p rest (rowMod H img dx dy x p v y) from rfl]
    rw [ih _ (fun z hz => h z (List.mem_cons_of_mem y hz))]
    rw [rowMod]
    by_cases hcond : 0 ≤ dy + (y : ℤ) ∧ dy + (y : ℤ) < (H : ℤ) ∧
        (dy + (y : ℤ)) / 8 = p ∧ rgbaAlpha img x y ≠ 0
    · rw [if_pos hcond]
      obtain ⟨h1, h2, h3, h4⟩ := hcond
      exact pixelMod_testBit_other _ _ _ _ hq
        (fun he => h y (List.mem_cons_self y rest) h1 h2 h3 h4 he.symm)
    · rw [if_neg hcond]

theorem openPage_succ_in (H : ℕ) (dy : ℤ) (k : ℕ)
    (h : 0 ≤ dy + (k : ℤ) ∧ dy + (k : ℤ) < (H : ℤ)) :
    openPage H dy (k + 1) = (dy + (k : ℤ)) / 8 := by
  rw [openPage, if_pos h]

theorem openPage_succ_out (H : ℕ) (dy : ℤ) (k : ℕ)
    (h : ¬(0 ≤ dy + (k : ℤ) ∧ dy + (k : ℤ) < (H : ℤ))) :
    openPage H dy (k + 1) = openPage H dy k := by
  rw [openPage, if_neg h]

theorem openPage_of_nonpos (H : ℕ) (dy : ℤ) :
    ∀ k : ℕ, dy + (k : ℤ) ≤ 0 → openPage H dy k = dy / 8 := by
  intro k
  induction k with
  | zero => intro _; rfl
  | succ n ih =>
    intro h
    rw [openPage_succ_out]
    · exact ih (by omega)
    · intro hc
      omega

theorem openPage_mid (H : ℕ) (dy : ℤ) (k : ℕ)
    (hin : 0 ≤ dy + (k : ℤ) ∧ dy + (k : ℤ) < (H : ℤ))
    (hmod : (dy + (k : ℤ)) % 8 ≠ 0) :
    openPage H dy k = (dy + (k : ℤ)) / 8 := by
  cases k with
  | zero => simp [openPage]
  | succ m =>
    have hprev : 0 ≤ dy + (m : ℤ) ∧ dy + (m : ℤ) < (H : ℤ) := by
      constructor
      · -- dy + k ≥ 0 and (dy+k) % 8 ≠ 0 force dy + k ≥ 1, so dy + m ≥ 0
        omega
      · omega
    rw [openPage_succ_in H dy m hprev]
    omega

theorem touchesPage_succ (H : ℕ) (dy : ℤ) (k : ℕ) (p : ℤ) :
    touchesPage H dy (k + 1) p =
      (touchesPage H dy k p ||
        decide (0 ≤ dy + (k : ℤ) ∧ dy + (k : ℤ) < (H : ℤ) ∧ (dy + (k : ℤ)) / 8 = p)) := by
  rw [touchesPage, touchesPage, List.range_succ, List.any_append]
  simp

theorem touchesPage_iff (H : ℕ) (dy : ℤ) (k : ℕ) (p : ℤ) :
    touchesPage H dy k p = true ↔
      ∃ y, y < k ∧ 0 ≤ dy + (y : ℤ) ∧ dy + (y : ℤ) < (H : ℤ) ∧ (dy + (y : ℤ)) / 8 = p := by
  rw [touchesPage, List.any_eq_true]
  constructor
  · rintro ⟨y, hy, hp⟩
    exact ⟨y, List.mem_range.mp hy, of_decide_eq_true hp⟩
  · rintro ⟨y, hy, h1, h2, h3⟩
    exact ⟨y, List.mem_range.mpr hy, decide_eq_true ⟨h1, h2, h3⟩⟩

theorem colLoop_eq_colRun (W H : ℕ) (img : Image) (dx dy : ℤ) (x : ℕ)
    (buf : List ℕ) (dirty : List ℤ) :
    colLoop W H img dx dy x buf dirty
      = colFinish (colRun W H img dx dy x buf dirty img.height) := rfl

theorem colRun_succ (W H : ℕ) (img : Image) (dx dy : ℤ) (x : ℕ)
    (buf : List ℕ) (dirty : List ℤ) (k : ℕ) :
    colRun W H img dx dy x buf dirty (k + 1)
      = colStep W H img dx dy x (colRun W H img dx dy x buf dirty k) k := by
  rw [colRun, colRun, List.range_succ, List.foldl_append]
  rfl

theorem zmul_le_left {a b : ℤ} (W : ℕ) (h : a ≤ b) : (W : ℤ) * a ≤ (W : ℤ) * b :=
  mul_le_mul_of_nonneg_left h (by positivity)

theorem zidx_in_range (W HP : ℕ) (d p : ℤ)
    (hd0 : 0 ≤ d) (hdW : d < (W : ℤ)) (hp0 : 0 ≤ p) (hpP : p < (HP : ℤ)) :
    0 ≤ d + (W : ℤ) * p ∧ d + (W : ℤ) * p < ((W * HP : ℕ) : ℤ) := by
  have h1 : (W : ℤ) * p ≤ (W : ℤ) * ((HP : ℤ) - 1) := zmul_le_left W (by omega)
  have h2 : (0 : ℤ) ≤ (W : ℤ) * p := mul_nonneg (by positivity) hp0
  push_cast
  constructor <;> nlinarith

theorem zidx_neg (W : ℕ) (d p : ℤ) (hdW : d < (W : ℤ)) (hp : p < 0) :
    d + (W : ℤ) * p < 0 := by
  have h1 : (W : ℤ) * p ≤ (W : ℤ) * (-1) := zmul_le_left W (by omega)
  nlinarith

theorem zidx_big (W HP : ℕ) (d p : ℤ) (hp : (HP : ℤ) ≤ p) :
    ((W * HP : ℕ) : ℤ) ≤ (W : ℤ) * p := by
  have h1 : (W : ℤ) * (HP : ℤ) ≤ (W : ℤ) * p := zmul_le_left W hp
  push_cast
  nlinarith

theorem zidx_toNat (W : ℕ) (d p : ℤ) (hW : 0 < W)
    (hd0 : 0 ≤ d) (hdW : d < (W : ℤ)) (hp0 : 0 ≤ p) :
    (d + (W : ℤ) * p).toNat = d.toNat + W * p.toNat ∧
    (d + (W : ℤ) * p).toNat % W = d.toNat ∧
    (d + (W : ℤ) * p).toNat / W = p.toNat := by
  have h2 : (0 : ℤ) ≤ (W : ℤ) * p := mul_nonneg (by positivity) hp0
  have h1 : (d + (W : ℤ) * p).toNat = d.toNat + W * p.toNat := by
    have hmul : ((W : ℤ) * p).toNat = W * p.toNat := by
      obtain ⟨n, rfl⟩ := Int.eq_ofNat_of_zero_le hp0
      norm_cast
    omega
  refine ⟨h1, ?_, ?_⟩
  · rw [h1, Nat.add_mul_mod_self_left, Nat.mod_eq_of_lt (by omega)]
  · rw [h1, Nat.add_mul_div_left _ _ hW, Nat.div_eq_of_lt (by omega)]
    omega

theorem nidx_recover (W a q j : ℕ) (hW : 0 < W)
    (hmod : j % W = a) (hdiv : j / W = q) : j = a + W * q := by
  have h1 := Nat.div_add_mod j W
  rw [hdiv, hmod] at h1
  rw [← h1]
  ring

theorem listGet_mem (l : List ℕ) (i : ℕ) (h : i < l.length) : listGet l i ∈ l := by
  rw [listGet, List.getD_eq_getElem l 0 h]
  exact List.getElem_mem h

theorem applyRowMods_nop (H : ℕ) (img : Image) (dx dy : ℤ) (x : ℕ) (p : ℤ)
    (rows : List ℕ) (v : ℕ)
    (h : ∀ y ∈ rows, ¬(0 ≤ dy + (y : ℤ) ∧ dy + (y : ℤ) < (H : ℤ) ∧
      (dy + (y : ℤ)) / 8 = p ∧ rgbaAlpha img x y ≠ 0)) :
    applyRowMods H img dx dy x p rows v = v := by
  induction rows generalizing v with
  | nil => rfl
  | cons y rest ih =>
    rw [applyRowMods, List.foldl_cons, rowMod, if_neg (h y (List.mem_cons_self y rest))]
    exact ih v (fun z hz => h z (List.mem_cons_of_mem y hz))

theorem colInv_zero (W H : ℕ) (img : Image) (dx dy : ℤ) (x : ℕ)
    (buf₀ : List ℕ) (dirty₀ : List ℤ) (hW : 0 < W) (h8 : H % 8 = 0)
    (hlen : buf₀.length = W * (H / 8))
    (hdxx0 : 0 ≤ dx + (x : ℤ)) (hdxxW : dx + (x : ℤ) < (W : ℤ)) :
    ColInv W H img dx dy x buf₀ 0 (colRun W H img dx dy x buf₀ dirty₀ 0) := by
  have hbi : (x : ℤ) + ((W : ℤ) * (dy / 8) + dx) = dx + (x : ℤ) + (W : ℤ) * (dy / 8) := by
    ring
  have hop : openPage H dy 0 = dy / 8 := rfl
  refine ⟨?_, rfl, ?_, ?_, ?_⟩
  · rw [colRun]
    simpa [hop] using hbi
  · intro hin
    rw [hop] at hin
    rw [colRun]
    simp only [List.range_zero, List.foldl_nil]
    rw [readJS, if_pos]
    · rw [hbi]
      rfl
    · rw [hbi, hlen]
      exact zidx_in_range W (H / 8) _ _ hdxx0 hdxxW hin.1 hin.2
  · intro hout
    rw [hop] at hout
    rw [colRun]
    simp only [List.range_zero, List.foldl_nil]
    rw [readJS, if_neg]
    intro hc
    rw [hbi, hlen] at hc
    rcases not_and_or.mp hout with h | h
    · have := zidx_neg W (dx + (x : ℤ)) (dy / 8) hdxxW (by omega)
      omega
    · have := zidx_big W (H / 8) (dx + (x : ℤ)) (dy / 8) (by omega)
      omega
  · intro j hj
    rw [if_neg]
    · rfl
    · rintro ⟨-, -, ht⟩
      rw [touchesPage] at ht
      simp at ht

theorem colInv_step_out (W H : ℕ) (img : Image) (dx dy : ℤ) (x : ℕ) (buf₀ : List ℕ)
    (k : ℕ) (R : ColState)
    (hout : dy + (k : ℤ) < 0 ∨ (H : ℤ) ≤ dy + (k : ℤ))
    (hinv : ColInv W H img dx dy x buf₀ k R) :
    ColInv W H img dx dy x buf₀ (k + 1) (colStep W H img dx dy x R k) := by
  obtain ⟨h1, h2, h3, h4, h5⟩ := hinv
  have hstep : colStep W H img dx dy x R k = R := by
    rw [colStep, if_pos hout]
  have hop : openPage H dy (k + 1) = openPage H dy k :=
    openPage_succ_out H dy k (by omega)
  have hACM : ∀ p v, applyColMods H img dx dy x p (k + 1) v
      = applyColMods H img dx dy x p k v := by
    intro p v
    rw [applyColMods_succ, rowMod, if_neg (by rintro ⟨a, b, -, -⟩; omega)]
  have hT : ∀ p, touchesPage H dy (k + 1) p = touchesPage H dy k p := by
    intro p
    rw [touchesPage_succ, decide_eq_false (by rintro ⟨a, b, -⟩; omega)]
    simp
  rw [hstep]
  refine ⟨by rw [hop]; exact h1, h2, ?_, ?_, ?_⟩
  · intro hin
    rw [hop] at hin ⊢
    rw [hACM]
    exact h3 hin
  · intro hno
    rw [hop] at hno
    exact h4 hno
  · intro j hj
    rw [hop, hT, hACM]
    exact h5 j hj

theorem colInv_step_mid (W H : ℕ) (img : Image) (dx dy : ℤ) (x : ℕ) (buf₀ : List ℕ)
    (k : ℕ) (R : ColState) (h8 : H % 8 = 0)
    (hin0 : 0 ≤ dy + (k : ℤ)) (hinH : dy + (k : ℤ) < (H : ℤ))
    (hmod : (dy + (k : ℤ)) % 8 ≠ 0)
    (hinv : ColInv W H img dx dy x buf₀ k R) :
    ColInv W H img dx dy x buf₀ (k + 1) (colStep W H img dx dy x R k) := by
  obtain ⟨h1, h2, h3, h4, h5⟩ := hinv
  have hopk : openPage H dy k = (dy + (k : ℤ)) / 8 := openPage_mid H dy k ⟨hin0, hinH⟩ hmod
  have hopk1 : openPage H dy (k + 1) = (dy + (k : ℤ)) / 8 :=
    openPage_succ_in H dy k ⟨hin0, hinH⟩
  have hpc0 : 0 ≤ (dy + (k : ℤ)) / 8 := Int.ediv_nonneg hin0 (by norm_num)
  have hcast : ((H / 8 : ℕ) : ℤ) = (H : ℤ) / 8 := by omega
  have hpcH : (dy + (k : ℤ)) / 8 < ((H / 8 : ℕ) : ℤ) := by omega
  have hbb := h3 (by rw [hopk]; exact ⟨hpc0, hpcH⟩)
  rw [hopk] at hbb
  -- the buffer, dirty set and index are untouched by a mid-page row
  have hbase : colStep W H img dx dy x R k =
      (if rgbaAlpha img x k = 0 then R
       else { R with bb := some (if rgbaBit img x k ≠ 0
                then (R.bb.getD 0) ||| (1 <<< ((dy + (k : ℤ)) % 8).toNat)
                else (R.bb.getD 0) &&&
                  (4294967295 ^^^ (1 <<< ((dy + (k : ℤ)) % 8).toNat))) }) := by
    rw [colStep]
    rw [if_neg (by omega : ¬(dy + (k : ℤ) < 0 ∨ (H : ℤ) ≤ dy + (k : ℤ)))]
    simp only
    rw [if_neg hmod]
  have hACM : ∀ p, p ≠ (dy + (k : ℤ)) / 8 →
      ∀ v, applyColMods H img dx dy x p (k + 1) v = applyColMods H img dx dy x p k v := by
    intro p hp v
    rw [applyColMods_succ, rowMod, if_neg (by rintro ⟨-, -, hp', -⟩; exact hp hp'.symm)]
  have hT : ∀ p, p ≠ (dy + (k : ℤ)) / 8 →
      touchesPage H dy (k + 1) p = touchesPage H dy k p := by
    intro p hp
    rw [touchesPage_succ, decide_eq_false (by rintro ⟨-, -, hp'⟩; exact hp hp'.symm)]
    simp
  have hbufeq : (colStep W H img dx dy x R k).buf = R.buf := by
    rw [hbase]
    by_cases halpha : rgbaAlpha img x k = 0
    · rw [if_pos halpha]
    · rw [if_neg halpha]
  have hbieq : (colStep W H img dx dy x R k).bi = R.bi := by
    rw [hbase]
    by_cases halpha : rgbaAlpha img x k = 0
    · rw [if_pos halpha]
    · rw [if_neg halpha]
  refine ⟨?_, ?_, ?_, ?_, ?_⟩
  · rw [hbieq, h1, hopk, hopk1]
  · rw [hbufeq]
    exact h2
  · intro _
    rw [hopk1, applyColMods_succ]
    simp only [rowMod]
    by_cases halpha : rgbaAlpha img x k = 0
    · rw [if_neg (by rintro ⟨-, -, -, ha⟩; exact ha halpha)]
      rw [hbase, if_pos halpha]
      exact hbb
    · rw [if_pos ⟨hin0, hinH, trivial, halpha⟩]
      rw [hbase, if_neg halpha]
      simp only
      rw [hbb]
      simp only [Option.getD_some]
      by_cases hbit : rgbaBit img x k ≠ 0
      · rw [if_pos hbit, pixelMod, if_pos (by simpa using hbit)]
      · rw [if_neg hbit, pixelMod, if_neg (by simpa using hbit)]
  · intro hno
    rw [hopk1] at hno
    exact absurd ⟨hpc0, hpcH⟩ hno
  · intro j hj
    rw [hbufeq, hopk1]
    by_cases hcond : j % W = (dx + (x : ℤ)).toNat ∧
        ((j / W : ℕ) : ℤ) < (dy + (k : ℤ)) / 8 ∧
        touchesPage H dy (k + 1) ((j / W : ℕ) : ℤ) = true
    · have hpne : ((j / W : ℕ) : ℤ) ≠ (dy + (k : ℤ)) / 8 := by omega
      rw [if_pos hcond, hACM _ hpne]
      have hck : j % W = (dx + (x : ℤ)).toNat ∧
          ((j / W : ℕ) : ℤ) < openPage H dy k ∧
          touchesPage H dy k ((j / W : ℕ) : ℤ) = true := by
        refine ⟨hcond.1, by rw [hopk]; exact hcond.2.1, ?_⟩
        rw [← hT _ hpne]
        exact hcond.2.2
      have := h5 j hj
      rw [if_pos hck] at this
      exact this
    · rw [if_neg hcond]
      have hck : ¬(j % W = (dx + (x : ℤ)).toNat ∧
          ((j / W : ℕ) : ℤ) < openPage H dy k ∧
          touchesPage H dy k ((j / W : ℕ) : ℤ) = true) := by
        intro hc
        apply hcond
        have hpne : ((j / W : ℕ) : ℤ) ≠ (dy + (k : ℤ)) / 8 := by
          rw [hopk] at hc
          omega
        refine ⟨hc.1, by rw [← hopk]; exact hc.2.1, ?_⟩
        rw [hT _ hpne]
        exact hc.2.2
      have := h5 j hj
      rw [if_neg hck] at this
      exact this

theorem touchesPage_false_noprev (H : ℕ) (dy : ℤ) (k : ℕ)
    (hnp : k = 0 ∨ dy + (k : ℤ) - 1 < 0) (p : ℤ) :
    touchesPage H dy k p = false := by
  rw [← Bool.not_eq_true]
  intro ht
  obtain ⟨y, hy, h1, -, -⟩ := (touchesPage_iff H dy k p).mp ht
  rcases hnp with h | h
  · omega
  · omega

theorem colInv_step_page_noprev (W H : ℕ) (img : Image) (dx dy : ℤ) (x : ℕ)
    (buf₀ : List ℕ) (k : ℕ) (R : ColState)
    (hW : 0 < W) (h8 : H % 8 = 0) (hlen : buf₀.length = W * (H / 8))
    (hdxx0 : 0 ≤ dx + (x : ℤ)) (hdxxW : dx + (x : ℤ) < (W : ℤ))
    (hin0 : 0 ≤ dy + (k : ℤ)) (hinH : dy + (k : ℤ) < (H : ℤ))
    (hmod0 : (dy + (k : ℤ)) % 8 = 0)
    (hnp : k = 0 ∨ dy + (k : ℤ) - 1 < 0)
    (hinv : ColInv W H img dx dy x buf₀ k R) :
    ColInv W H img dx dy x buf₀ (k + 1) (colStep W H img dx dy x R k) := by
  obtain ⟨h1, h2, h3, h4, h5⟩ := hinv
  have hcast : ((H / 8 : ℕ) : ℤ) = (H : ℤ) / 8 := by omega
  have hpn0 : 0 ≤ (dy + (k : ℤ)) / 8 := Int.ediv_nonneg hin0 (by norm_num)
  have hpnH : (dy + (k : ℤ)) / 8 < ((H / 8 : ℕ) : ℤ) := by omega
  have hopk : openPage H dy k = dy / 8 := by
    rcases hnp with h | h
    · subst h; rfl
    · exact openPage_of_nonpos H dy k (by omega)
  have hopk1 : openPage H dy (k + 1) = (dy + (k : ℤ)) / 8 :=
    openPage_succ_in H dy k ⟨hin0, hinH⟩
  have hT0 : ∀ p, touchesPage H dy k p = false := touchesPage_false_noprev H dy k hnp
  -- the buffer equals the start-of-column buffer everywhere
  have hbufeq : ∀ j, j < buf₀.length → listGet R.buf j = listGet buf₀ j := by
    intro j hj
    have := h5 j hj
    rwa [if_neg (by rintro ⟨-, -, ht⟩; rw [hT0] at ht; cases ht)] at this
  -- no earlier row contributes any modification
  have hnop : ∀ p v, applyColMods H img dx dy x p k v = v := by
    intro p v
    apply applyRowMods_nop
    intro y hy
    rintro ⟨hy0, -, -, -⟩
    rcases hnp with h | h
    · rw [h] at hy; simp at hy
    · have := List.mem_range.mp hy
      omega
  -- `changed` is false: the accumulator still equals the stored byte
  have hch : ¬((x ≠ 0 ∨ k ≠ 0) ∧ R.bb ≠ readJS R.buf R.bi) := by
    rintro ⟨-, hne⟩
    apply hne
    by_cases hop : 0 ≤ openPage H dy k ∧ openPage H dy k < ((H / 8 : ℕ) : ℤ)
    · rw [h3 hop, hnop]
      rw [readJS, if_pos (by
        rw [h1, h2, hlen]
        exact zidx_in_range W (H / 8) _ _ hdxx0 hdxxW hop.1 hop.2)]
      have hidx := zidx_in_range W (H / 8) (dx + (x : ℤ)) (openPage H dy k)
        hdxx0 hdxxW hop.1 hop.2
      rw [h1, hbufeq _ (by rw [hlen]; omega)]
    · rw [h4 hop, readJS, if_neg]
      intro hc
      rw [h1, h2, hlen] at hc
      rcases not_and_or.mp hop with h | h
      · have := zidx_neg W (dx + (x : ℤ)) (openPage H dy k) hdxxW (by omega)
        omega
      · have := zidx_big W (H / 8) (dx + (x : ℤ)) (openPage H dy k) (by omega)
        omega
  have hstep : colStep W H img dx dy x R k =
      (if rgbaAlpha img x k = 0
       then (⟨R.buf, R.dirty, dx + (x : ℤ) + (W : ℤ) * ((dy + (k : ℤ)) / 8),
              readJS R.buf (dx + (x : ℤ) + (W : ℤ) * ((dy + (k : ℤ)) / 8))⟩ : ColState)
       else { (⟨R.buf, R.dirty, dx + (x : ℤ) + (W : ℤ) * ((dy + (k : ℤ)) / 8),
              readJS R.buf (dx + (x : ℤ) + (W : ℤ) * ((dy + (k : ℤ)) / 8))⟩ : ColState) with
          bb := some (if rgbaBit img x k ≠ 0
            then ((readJS R.buf (dx + (x : ℤ) + (W : ℤ) * ((dy + (k : ℤ)) / 8))).getD 0)
                  ||| (1 <<< ((dy + (k : ℤ)) % 8).toNat)
            else ((readJS R.buf (dx + (x : ℤ) + (W : ℤ) * ((dy + (k : ℤ)) / 8))).getD 0)
                  &&& (4294967295 ^^^ (1 <<< ((dy + (k : ℤ)) % 8).toNat))) }) := by
    rw [colStep]
    rw [if_neg (by omega : ¬(dy + (k : ℤ) < 0 ∨ (H : ℤ) ≤ dy + (k : ℤ)))]
    simp only
    rw [if_pos hmod0, if_neg hch, if_neg hch]
  -- the byte of the newly opened page, read through the invariant
  have hidxpn := zidx_in_range W (H / 8) (dx + (x : ℤ)) ((dy + (k : ℤ)) / 8)
    hdxx0 hdxxW hpn0 hpnH
  have hread : readJS R.buf (dx + (x : ℤ) + (W : ℤ) * ((dy + (k : ℤ)) / 8))
      = some (listGet buf₀ (dx + (x : ℤ) + (W : ℤ) * ((dy + (k : ℤ)) / 8)).toNat) := by
    rw [readJS, if_pos (by rw [h2, hlen]; exact hidxpn)]
    rw [hbufeq _ (by rw [hlen]; omega)]
  have hacm1 : ∀ v, applyColMods H img dx dy x ((dy + (k : ℤ)) / 8) (k + 1) v
      = rowMod H img dx dy x ((dy + (k : ℤ)) / 8) v k := by
    intro v
    rw [applyColMods_succ, hnop]
  refine ⟨?_, ?_, ?_, ?_, ?_⟩
  · rw [hstep, hopk1]
    by_cases halpha : rgbaAlpha img x k = 0
    · rw [if_pos halpha]
    · rw [if_neg halpha]
  · rw [hstep]
    by_cases halpha : rgbaAlpha img x k = 0
    · rw [if_pos halpha]; exact h2
    · rw [if_neg halpha]; exact h2
  · intro _
    rw [hopk1, hacm1]
    simp only [rowMod]
    by_cases halpha : rgbaAlpha img x k = 0
    · rw [if_neg (by rintro ⟨-, -, -, ha⟩; exact ha halpha)]
      rw [hstep, if_pos halpha]
      exact hread
    · rw [if_pos ⟨hin0, hinH, trivial, halpha⟩]
      rw [hstep, if_neg halpha]
      simp only
      rw [hread]
      simp only [Option.getD_some]
      by_cases hbit : rgbaBit img x k ≠ 0
      · rw [if_pos hbit, pixelMod, if_pos (by simpa using hbit)]
      · rw [if_neg hbit, pixelMod, if_neg (by simpa using hbit)]
  · intro hno
    rw [hopk1] at hno
    exact absurd ⟨hpn0, hpnH⟩ hno
  · intro j hj
    have hTk1 : touchesPage H dy (k + 1) ((j / W : ℕ) : ℤ) = true →
        ((j / W : ℕ) : ℤ) = (dy + (k : ℤ)) / 8 := by
      intro ht
      rw [touchesPage_succ, hT0] at ht
      simp at ht
      omega
    have hbufstep : (colStep W H img dx dy x R k).buf = R.buf := by
      rw [hstep]
      by_cases halpha : rgbaAlpha img x k = 0
      · rw [if_pos halpha]
      · rw [if_neg halpha]
    rw [hbufstep, hopk1, if_neg, hbufeq j hj]
    rintro ⟨-, hlt, ht⟩
    have := hTk1 ht
    omega

theorem colStep_eq_pixelPhase (W H : ℕ) (img : Image) (dx dy : ℤ) (x : ℕ)
    (s : ColState) (y : ℕ) (hin0 : 0 ≤ dy + (y : ℤ)) (hinH : dy + (y : ℤ) < (H : ℤ)) :
    colStep W H img dx dy x s y =
      pixelPhase H img dy x y
        (if (dy + (y : ℤ)) % 8 = 0 then
          ⟨(if (x ≠ 0 ∨ y ≠ 0) ∧ s.bb ≠ readJS s.buf s.bi
            then writeJS s.buf s.bi (s.bb.getD 0) else s.buf),
           (if (x ≠ 0 ∨ y ≠ 0) ∧ s.bb ≠ readJS s.buf s.bi
            then dirtyAdd s.dirty s.bi else s.dirty),
           dx + (x : ℤ) + (W : ℤ) * ((dy + (y : ℤ)) / 8),
           readJS (if (x ≠ 0 ∨ y ≠ 0) ∧ s.bb ≠ readJS s.buf s.bi
            then writeJS s.buf s.bi (s.bb.getD 0) else s.buf)
             (dx + (x : ℤ) + (W : ℤ) * ((dy + (y : ℤ)) / 8))⟩
         else s) := by
  rw [colStep, if_neg (by omega : ¬(dy + (y : ℤ) < 0 ∨ (H : ℤ) ≤ dy + (y : ℤ)))]
  rw [pixelPhase]

theorem openPage_pos (H : ℕ) (dy : ℤ) (k : ℕ) (hk : 1 ≤ k)
    (h0 : 0 ≤ dy + (k : ℤ) - 1) (hH : dy + (k : ℤ) - 1 < (H : ℤ)) :
    openPage H dy k = (dy + (k : ℤ) - 1) / 8 := by
  cases k with
  | zero => exact absurd hk (by norm_num)
  | succ m =>
    rw [openPage_succ_in H dy m ⟨by omega, by omega⟩]
    omega

theorem writeJS_length (l : List ℕ) (i : ℤ) (v : ℕ) :
    (writeJS l i v).length = l.length := by
  rw [writeJS]
  by_cases h : 0 ≤ i
  · rw [if_pos h, List.length_set]
  · rw [if_neg h]

theorem pixelPhase_buf (H : ℕ) (img : Image) (dy : ℤ) (x y : ℕ)
    (b : List ℕ) (d : List ℤ) (i : ℤ) (o : Option ℕ) :
    (pixelPhase H img dy x y ⟨b, d, i, o⟩).buf = b := by
  rw [pixelPhase]
  by_cases h : rgbaAlpha img x y = 0
  · rw [if_pos h]
  · rw [if_neg h]

theorem pixelPhase_bi (H : ℕ) (img : Image) (dy : ℤ) (x y : ℕ)
    (b : List ℕ) (d : List ℤ) (i : ℤ) (o : Option ℕ) :
    (pixelPhase H img dy x y ⟨b, d, i, o⟩).bi = i := by
  rw [pixelPhase]
  by_cases h : rgbaAlpha img x y = 0
  · rw [if_pos h]
  · rw [if_neg h]

theorem pixelPhase_bb (H : ℕ) (img : Image) (dy : ℤ) (x y : ℕ)
    (b : List ℕ) (d : List ℤ) (i : ℤ) (o : Option ℕ) :
    (pixelPhase H img dy x y ⟨b, d, i, o⟩).bb =
      if rgbaAlpha img x y = 0 then o
      else some (if rgbaBit img x y ≠ 0
        then (o.getD 0) ||| (1 <<< ((dy + (y : ℤ)) % 8).toNat)
        else (o.getD 0) &&& (4294967295 ^^^ (1 <<< ((dy + (y : ℤ)) % 8).toNat))) := by
  rw [pixelPhase]
  by_cases h : rgbaAlpha img x y = 0
  · rw [if_pos h, if_pos h]
  · rw [if_neg h, if_neg h]

theorem colInv_prev_finish (W H : ℕ) (img : Image) (dx dy : ℤ) (x : ℕ)
    (buf₀ : List ℕ) (k : ℕ) (R : ColState) (B1 : List ℕ) (D1 : List ℤ)
    (hW : 0 < W) (h8 : H % 8 = 0) (hlen : buf₀.length = W * (H / 8))
    (hdxx0 : 0 ≤ dx + (x : ℤ)) (hdxxW : dx + (x : ℤ) < (W : ℤ))
    (hk1 : 1 ≤ k) (hprev0 : 0 ≤ dy + (k : ℤ) - 1)
    (hinH : dy + (k : ℤ) < (H : ℤ)) (hmod0 : (dy + (k : ℤ)) % 8 = 0)
    (h5 : ∀ j : ℕ, j < buf₀.length →
      listGet R.buf j =
        if j % W = (dx + (x : ℤ)).toNat ∧
            ((j / W : ℕ) : ℤ) < (dy + (k : ℤ) - 1) / 8 ∧
            touchesPage H dy k ((j / W : ℕ) : ℤ) = true
        then applyColMods H img dx dy x ((j / W : ℕ) : ℤ) k (listGet buf₀ j)
        else listGet buf₀ j)
    (hB1len : B1.length = buf₀.length)
    (hB1 : ∀ j : ℕ, j < buf₀.length →
      listGet B1 j =
        if j = (dx + (x : ℤ) + (W : ℤ) * ((dy + (k : ℤ) - 1) / 8)).toNat
        then applyColMods H img dx dy x ((dy + (k : ℤ) - 1) / 8) k
          (listGet buf₀ (dx + (x : ℤ) + (W : ℤ) * ((dy + (k : ℤ) - 1) / 8)).toNat)
        else listGet R.buf j) :
    ColInv W H img dx dy x buf₀ (k + 1)
      (pixelPhase H img dy x k
        ⟨B1, D1, dx + (x : ℤ) + (W : ℤ) * ((dy + (k : ℤ)) / 8),
         readJS B1 (dx + (x : ℤ) + (W : ℤ) * ((dy + (k : ℤ)) / 8))⟩) := by
  have hin0 : 0 ≤ dy + (k : ℤ) := by omega
  have hcast : ((H / 8 : ℕ) : ℤ) = (H : ℤ) / 8 := by omega
  have hpn0 : 0 ≤ (dy + (k : ℤ)) / 8 := Int.ediv_nonneg hin0 (by norm_num)
  have hpnH : (dy + (k : ℤ)) / 8 < ((H / 8 : ℕ) : ℤ) := by omega
  have hop0 : 0 ≤ (dy + (k : ℤ) - 1) / 8 := Int.ediv_nonneg hprev0 (by norm_num)
  have hoprel : (dy + (k : ℤ) - 1) / 8 = (dy + (k : ℤ)) / 8 - 1 := by omega
  have hopH : (dy + (k : ℤ) - 1) / 8 < ((H / 8 : ℕ) : ℤ) := by omega
  have hopk1 : openPage H dy (k + 1) = (dy + (k : ℤ)) / 8 :=
    openPage_succ_in H dy k ⟨hin0, hinH⟩
  have hidxop := zidx_in_range W (H / 8) (dx + (x : ℤ)) ((dy + (k : ℤ) - 1) / 8)
    hdxx0 hdxxW hop0 hopH
  have hidxpn := zidx_in_range W (H / 8) (dx + (x : ℤ)) ((dy + (k : ℤ)) / 8)
    hdxx0 hdxxW hpn0 hpnH
  have htop := zidx_toNat W (dx + (x : ℤ)) ((dy + (k : ℤ) - 1) / 8) hW hdxx0 hdxxW hop0
  have htpn := zidx_toNat W (dx + (x : ℤ)) ((dy + (k : ℤ)) / 8) hW hdxx0 hdxxW hpn0
  have hjpn : (dx + (x : ℤ) + (W : ℤ) * ((dy + (k : ℤ)) / 8)).toNat < buf₀.length := by
    rw [hlen]
    omega
  have hne_pg : ((dy + (k : ℤ)) / 8).toNat ≠ ((dy + (k : ℤ) - 1) / 8).toNat := by omega
  have hne_idx : (dx + (x : ℤ) + (W : ℤ) * ((dy + (k : ℤ)) / 8)).toNat
      ≠ (dx + (x : ℤ) + (W : ℤ) * ((dy + (k : ℤ) - 1) / 8)).toNat := by
    intro he
    exact hne_pg (by rw [← htpn.2.2, ← htop.2.2, he])
  have hread_pn : readJS B1 (dx + (x : ℤ) + (W : ℤ) * ((dy + (k : ℤ)) / 8))
      = some (listGet buf₀ (dx + (x : ℤ) + (W : ℤ) * ((dy + (k : ℤ)) / 8)).toNat) := by
    rw [readJS, if_pos (by rw [hB1len, hlen]; exact hidxpn)]
    rw [hB1 _ hjpn, if_neg hne_idx, h5 _ hjpn, if_neg]
    rintro ⟨-, hlt, -⟩
    rw [htpn.2.2] at hlt
    omega
  refine ⟨?_, ?_, ?_, ?_, ?_⟩
  · rw [pixelPhase_bi, hopk1]
  · rw [pixelPhase_buf]
    exact hB1len
  · intro _
    have hnop : applyColMods H img dx dy x ((dy + (k : ℤ)) / 8) k
        (listGet buf₀ (dx + (x : ℤ) + (W : ℤ) * ((dy + (k : ℤ)) / 8)).toNat)
        = listGet buf₀ (dx + (x : ℤ) + (W : ℤ) * ((dy + (k : ℤ)) / 8)).toNat := by
      rw [applyColMods]
      apply applyRowMods_nop
      intro y hy
      rintro ⟨a, b, c, -⟩
      have hy' := List.mem_range.mp hy
      omega
    rw [hopk1, pixelPhase_bb, hread_pn, applyColMods_succ, hnop]
    simp only [Option.getD_some]
    simp only [rowMod]
    by_cases halpha : rgbaAlpha img x k = 0
    · rw [if_neg (show ¬(0 ≤ dy + (k : ℤ) ∧ dy + (k : ℤ) < (H : ℤ) ∧ True ∧
            rgbaAlpha img x k ≠ 0) from by rintro ⟨-, -, -, ha⟩; exact ha halpha),
          if_pos halpha]
    · rw [if_pos (show 0 ≤ dy + (k : ℤ) ∧ dy + (k : ℤ) < (H : ℤ) ∧ True ∧
            rgbaAlpha img x k ≠ 0 from ⟨hin0, hinH, trivial, halpha⟩),
          if_neg halpha, pixelMod]
      by_cases hbit : rgbaBit img x k ≠ 0
      · rw [if_pos hbit, if_pos (by simpa using hbit)]
      · rw [if_neg hbit, if_neg (by simpa using hbit)]
  · intro hno
    rw [hopk1] at hno
    exact absurd ⟨hpn0, hpnH⟩ hno
  · intro j hj
    rw [pixelPhase_buf, hopk1, hB1 j hj]
    by_cases hje : j = (dx + (x : ℤ) + (W : ℤ) * ((dy + (k : ℤ) - 1) / 8)).toNat
    · rw [if_pos hje]
      have hc1 : j % W = (dx + (x : ℤ)).toNat := by
        rw [hje]
        exact htop.2.1
      have hdivj : j / W = ((dy + (k : ℤ) - 1) / 8).toNat := by
        rw [hje]
        exact htop.2.2
      have hcp : ((j / W : ℕ) : ℤ) = (dy + (k : ℤ) - 1) / 8 := by
        rw [hdivj]
        exact Int.toNat_of_nonneg hop0
      have hc2 : ((j / W : ℕ) : ℤ) < (dy + (k : ℤ)) / 8 := by
        rw [hcp]
        omega
      have hc3 : touchesPage H dy (k + 1) ((j / W : ℕ) : ℤ) = true := by
        rw [hcp]
        exact (touchesPage_iff H dy (k + 1) ((dy + (k : ℤ) - 1) / 8)).mpr
          ⟨k - 1, by omega, by omega, by omega, by omega⟩
      rw [if_pos ⟨hc1, hc2, hc3⟩, hcp, hje, applyColMods_succ]
      simp only [rowMod]
      rw [if_neg (by rintro ⟨-, -, hp, -⟩; omega)]
    · rw [if_neg hje]
      by_cases hck1 : j % W = (dx + (x : ℤ)).toNat ∧
          ((j / W : ℕ) : ℤ) < (dy + (k : ℤ)) / 8 ∧
          touchesPage H dy (k + 1) ((j / W : ℕ) : ℤ) = true
      · have hpne : ((j / W : ℕ) : ℤ) ≠ (dy + (k : ℤ) - 1) / 8 := by
          intro hpe
          apply hje
          have hdivj : j / W = ((dy + (k : ℤ) - 1) / 8).toNat := by omega
          rw [htop.1]
          exact nidx_recover W (dx + (x : ℤ)).toNat ((dy + (k : ℤ) - 1) / 8).toNat j
            hW hck1.1 hdivj
        have hplt : ((j / W : ℕ) : ℤ) < (dy + (k : ℤ) - 1) / 8 := by omega
        have htk : touchesPage H dy k ((j / W : ℕ) : ℤ) = true := by
          have ht := hck1.2.2
          rw [touchesPage_succ] at ht
          have ht' : touchesPage H dy k ((j / W : ℕ) : ℤ) = true ∨
              (0 ≤ dy + (k : ℤ) ∧ dy + (k : ℤ) < (H : ℤ) ∧
                (dy + (k : ℤ)) / 8 = ((j / W : ℕ) : ℤ)) := by
            simpa using ht
          rcases ht' with h | h
          · exact h
          · exfalso
            omega
        have h5j := h5 j hj
        rw [if_pos ⟨hck1.1, hplt, htk⟩] at h5j
        rw [if_pos hck1, h5j, applyColMods_succ]
        simp only [rowMod]
        rw [if_neg (by rintro ⟨-, -, hp, -⟩; omega)]
      · rw [if_neg hck1]
        have h5j := h5 j hj
        rw [if_neg] at h5j
        · exact h5j
        · rintro ⟨hc1, hc2, hc3⟩
          apply hck1
          refine ⟨hc1, by omega, ?_⟩
          rw [touchesPage_succ, hc3, Bool.true_or]

theorem colInv_step_page_prev (W H : ℕ) (img : Image) (dx dy : ℤ) (x : ℕ)
    (buf₀ : List ℕ) (k : ℕ) (R : ColState)
    (hW : 0 < W) (h8 : H % 8 = 0) (hlen : buf₀.length = W * (H / 8))
    (hbytes : ∀ v ∈ buf₀, v < 256)
    (hdxx0 : 0 ≤ dx + (x : ℤ)) (hdxxW : dx + (x : ℤ) < (W : ℤ))
    (hinH : dy + (k : ℤ) < (H : ℤ)) (hmod0 : (dy + (k : ℤ)) % 8 = 0)
    (hk1 : 1 ≤ k) (hprev0 : 0 ≤ dy + (k : ℤ) - 1)
    (hinv : ColInv W H img dx dy x buf₀ k R) :
    ColInv W H img dx dy x buf₀ (k + 1) (colStep W H img dx dy x R k) := by
  obtain ⟨h1, h2, h3, h4, h5⟩ := hinv
  have hin0 : 0 ≤ dy + (k : ℤ) := by omega
  have hcast : ((H / 8 : ℕ) : ℤ) = (H : ℤ) / 8 := by omega
  have hop0 : 0 ≤ (dy + (k : ℤ) - 1) / 8 := Int.ediv_nonneg hprev0 (by norm_num)
  have hopH : (dy + (k : ℤ) - 1) / 8 < ((H / 8 : ℕ) : ℤ) := by omega
  have hopk : openPage H dy k = (dy + (k : ℤ) - 1) / 8 :=
    openPage_pos H dy k hk1 hprev0 (by omega)
  rw [hopk] at h1 h3 h5
  have hbb := h3 ⟨hop0, hopH⟩
  have htop := zidx_toNat W (dx + (x : ℤ)) ((dy + (k : ℤ) - 1) / 8) hW hdxx0 hdxxW hop0
  have hidxop := zidx_in_range W (H / 8) (dx + (x : ℤ)) ((dy + (k : ℤ) - 1) / 8)
    hdxx0 hdxxW hop0 hopH
  have hjop : (dx + (x : ℤ) + (W : ℤ) * ((dy + (k : ℤ) - 1) / 8)).toNat < buf₀.length := by
    rw [hlen]
    omega
  have hbase0 : listGet R.buf (dx + (x : ℤ) + (W : ℤ) * ((dy + (k : ℤ) - 1) / 8)).toNat
      = listGet buf₀ (dx + (x : ℤ) + (W : ℤ) * ((dy + (k : ℤ) - 1) / 8)).toNat := by
    have h5j := h5 _ hjop
    rwa [if_neg (by rintro ⟨-, hlt, -⟩; rw [htop.2.2] at hlt; omega)] at h5j
  have hreadop : readJS R.buf R.bi
      = some (listGet buf₀ (dx + (x : ℤ) + (W : ℤ) * ((dy + (k : ℤ) - 1) / 8)).toNat) := by
    rw [h1, readJS, if_pos (by rw [h2, hlen]; exact hidxop), hbase0]
  have hacc256 : applyColMods H img dx dy x ((dy + (k : ℤ) - 1) / 8) k
      (listGet buf₀ (dx + (x : ℤ) + (W : ℤ) * ((dy + (k : ℤ) - 1) / 8)).toNat) < 256 := by
    rw [applyColMods]
    exact applyRowMods_lt_256 H img dx dy x _ _ _
      (hbytes _ (listGet_mem buf₀ _ hjop))
  have hstep := colStep_eq_pixelPhase W H img dx dy x R k hin0 hinH
  rw [if_pos hmod0] at hstep
  by_cases hch : (x ≠ 0 ∨ k ≠ 0) ∧ R.bb ≠ readJS R.buf R.bi
  · rw [if_pos hch, if_pos hch] at hstep
    rw [hstep]
    refine colInv_prev_finish W H img dx dy x buf₀ k R _ _ hW h8 hlen hdxx0 hdxxW
      hk1 hprev0 hinH hmod0 h5 ?_ ?_
    · rw [writeJS_length, h2]
    · intro j hj
      rw [hbb]
      simp only [Option.getD_some]
      rw [h1, writeJS,
        if_pos (by omega : (0 : ℤ) ≤ dx + (x : ℤ) + (W : ℤ) * ((dy + (k : ℤ) - 1) / 8)),
        Nat.mod_eq_of_lt hacc256]
      by_cases hje : j = (dx + (x : ℤ) + (W : ℤ) * ((dy + (k : ℤ) - 1) / 8)).toNat
      · rw [if_pos hje, hje]
        exact listGet_set_self _ _ _ (by rw [h2]; exact hjop)
      · rw [if_neg hje]
        exact listGet_set_other _ _ _ _ (fun he => hje he.symm)
  · rw [if_neg hch, if_neg hch] at hstep
    rw [hstep]
    have hbbeq : R.bb = readJS R.buf R.bi := by
      by_contra hne
      exact hch ⟨Or.inr (by omega), hne⟩
    have haccb : applyColMods H img dx dy x ((dy + (k : ℤ) - 1) / 8) k
        (listGet buf₀ (dx + (x : ℤ) + (W : ℤ) * ((dy + (k : ℤ) - 1) / 8)).toNat)
        = listGet buf₀ (dx + (x : ℤ) + (W : ℤ) * ((dy + (k : ℤ) - 1) / 8)).toNat :=
      Option.some.inj (hbb.symm.trans (hbbeq.trans hreadop))
    refine colInv_prev_finish W H img dx dy x buf₀ k R R.buf R.dirty hW h8 hlen
      hdxx0 hdxxW hk1 hprev0 hinH hmod0 h5 h2 ?_
    intro j hj
    by_cases hje : j = (dx + (x : ℤ) + (W : ℤ) * ((dy + (k : ℤ) - 1) / 8)).toNat
    · rw [if_pos hje, haccb, hje, hbase0]
    · rw [if_neg hje]

theorem openPage_ge (H : ℕ) (dy : ℤ) :
    ∀ k y : ℕ, y < k → 0 ≤ dy + (y : ℤ) → dy + (y : ℤ) < (H : ℤ) →
      (dy + (y : ℤ)) / 8 ≤ openPage H dy k := by
  intro k
  induction k with
  | zero => intro y hy; exact absurd hy (Nat.not_lt_zero y)
  | succ n ih =>
    intro y hy h0 hH
    by_cases hin : 0 ≤ dy + (n : ℤ) ∧ dy + (n : ℤ) < (H : ℤ)
    · rw [openPage_succ_in H dy n hin]
      omega
    · rw [openPage_succ_out H dy n hin]
      rcases Nat.lt_succ_iff_lt_or_eq.mp hy with h | h
      · exact ih y h h0 hH
      · subst h
        exact absurd ⟨h0, hH⟩ hin

theorem openPage_touched_range (H : ℕ) (dy : ℤ) (k : ℕ) (p : ℤ) (h8 : H % 8 = 0)
    (ht : touchesPage H dy k p = true) :
    0 ≤ openPage H dy k ∧ openPage H dy k < ((H / 8 : ℕ) : ℤ) := by
  induction k with
  | zero =>
    rw [touchesPage] at ht
    simp at ht
  | succ n ih =>
    by_cases hin : 0 ≤ dy + (n : ℤ) ∧ dy + (n : ℤ) < (H : ℤ)
    · rw [openPage_succ_in H dy n hin]
      have hcast : ((H / 8 : ℕ) : ℤ) = (H : ℤ) / 8 := by omega
      refine ⟨Int.ediv_nonneg hin.1 (by norm_num), by omega⟩
    · rw [openPage_succ_out H dy n hin]
      apply ih
      rw [touchesPage_succ] at ht
      have ht' : touchesPage H dy n p = true ∨
          (0 ≤ dy + (n : ℤ) ∧ dy + (n : ℤ) < (H : ℤ) ∧ (dy + (n : ℤ)) / 8 = p) := by
        simpa using ht
      rcases ht' with h | h
      · exact h
      · exact absurd ⟨h.1, h.2.1⟩ hin

theorem colRun_colInv (W H : ℕ) (img : Image) (dx dy : ℤ) (x : ℕ)
    (buf₀ : List ℕ) (dirty₀ : List ℤ)
    (hW : 0 < W) (h8 : H % 8 = 0) (hlen : buf₀.length = W * (H / 8))
    (hbytes : ∀ v ∈ buf₀, v < 256)
    (hdxx0 : 0 ≤ dx + (x : ℤ)) (hdxxW : dx + (x : ℤ) < (W : ℤ)) :
    ∀ k : ℕ, ColInv W H img dx dy x buf₀ k (colRun W H img dx dy x buf₀ dirty₀ k) := by
  intro k
  induction k with
  | zero => exact colInv_zero W H img dx dy x buf₀ dirty₀ hW h8 hlen hdxx0 hdxxW
  | succ n ih =>
    rw [colRun_succ]
    by_cases hout : dy + (n : ℤ) < 0 ∨ (H : ℤ) ≤ dy + (n : ℤ)
    · exact colInv_step_out W H img dx dy x buf₀ n _ hout ih
    · have hin0 : 0 ≤ dy + (n : ℤ) := by omega
      have hinH : dy + (n : ℤ) < (H : ℤ) := by omega
      by_cases hmod : (dy + (n : ℤ)) % 8 = 0
      · by_cases hnp : n = 0 ∨ dy + (n : ℤ) - 1 < 0
        · exact colInv_step_page_noprev W H img dx dy x buf₀ n _ hW h8 hlen
            hdxx0 hdxxW hin0 hinH hmod hnp ih
        · exact colInv_step_page_prev W H img dx dy x buf₀ n _ hW h8 hlen hbytes
            hdxx0 hdxxW hinH hmod (by omega) (by omega) ih
      · exact colInv_step_mid W H img dx dy x buf₀ n _ h8 hin0 hinH hmod ih

theorem colFinish_char (W H : ℕ) (img : Image) (dx dy : ℤ) (x : ℕ)
    (buf₀ : List ℕ) (k : ℕ) (R : ColState)
    (hW : 0 < W) (h8 : H % 8 = 0) (hlen : buf₀.length = W * (H / 8))
    (hbytes : ∀ v ∈ buf₀, v < 256)
    (hdxx0 : 0 ≤ dx + (x : ℤ)) (hdxxW : dx + (x : ℤ) < (W : ℤ))
    (hinv : ColInv W H img dx dy x buf₀ k R) :
    (colFinish R).1.length = buf₀.length ∧
    ∀ j : ℕ, j < buf₀.length →
      listGet (colFinish R).1 j =
        if j % W = (dx + (x : ℤ)).toNat ∧
            touchesPage H dy k ((j / W : ℕ) : ℤ) = true
        then applyColMods H img dx dy x ((j / W : ℕ) : ℤ) k (listGet buf₀ j)
        else listGet buf₀ j := by
  obtain ⟨h1, h2, h3, h4, h5⟩ := hinv
  by_cases hop : 0 ≤ openPage H dy k ∧ openPage H dy k < ((H / 8 : ℕ) : ℤ)
  · -- the open page is on screen: the final save may write its byte back
    have hbb := h3 hop
    have htop := zidx_toNat W (dx + (x : ℤ)) (openPage H dy k) hW hdxx0 hdxxW hop.1
    have hidxop := zidx_in_range W (H / 8) (dx + (x : ℤ)) (openPage H dy k)
      hdxx0 hdxxW hop.1 hop.2
    have hjop : (dx + (x : ℤ) + (W : ℤ) * openPage H dy k).toNat < buf₀.length := by
      rw [hlen]
      omega
    have hbase0 : listGet R.buf (dx + (x : ℤ) + (W : ℤ) * openPage H dy k).toNat
        = listGet buf₀ (dx + (x : ℤ) + (W : ℤ) * openPage H dy k).toNat := by
      have h5j := h5 _ hjop
      rwa [if_neg (by rintro ⟨-, hlt, -⟩; rw [htop.2.2] at hlt; omega)] at h5j
    have hreadop : readJS R.buf R.bi
        = some (listGet buf₀ (dx + (x : ℤ) + (W : ℤ) * openPage H dy k).toNat) := by
      rw [h1, readJS, if_pos (by rw [h2, hlen]; exact hidxop), hbase0]
    have hacc256 : applyColMods H img dx dy x (openPage H dy k) k
        (listGet buf₀ (dx + (x : ℤ) + (W : ℤ) * openPage H dy k).toNat) < 256 := by
      rw [applyColMods]
      exact applyRowMods_lt_256 H img dx dy x _ _ _
        (hbytes _ (listGet_mem buf₀ _ hjop))
    have hcp : (((dx + (x : ℤ) + (W : ℤ) * openPage H dy k).toNat / W : ℕ) : ℤ)
        = openPage H dy k := by
      rw [htop.2.2]
      exact Int.toNat_of_nonneg hop.1
    rw [colFinish]
    by_cases hne : R.bb ≠ readJS R.buf R.bi
    · rw [if_pos hne]
      constructor
      · show (writeJS R.buf R.bi (R.bb.getD 0)).length = buf₀.length
        rw [writeJS_length, h2]
      · intro j hj
        show listGet (writeJS R.buf R.bi (R.bb.getD 0)) j = _
        rw [hbb]
        simp only [Option.getD_some]
        rw [h1, writeJS, if_pos (by omega : (0 : ℤ) ≤ dx + (x : ℤ) + (W : ℤ) * openPage H dy k),
          Nat.mod_eq_of_lt hacc256]
        by_cases hje : j = (dx + (x : ℤ) + (W : ℤ) * openPage H dy k).toNat
        · rw [hje, listGet_set_self _ _ _ (by rw [h2]; exact hjop)]
          by_cases htpg : touchesPage H dy k (openPage H dy k) = true
          · rw [if_pos ⟨htop.2.1, by rw [hcp]; exact htpg⟩, hcp]
          · rw [if_neg (by rintro ⟨-, ht⟩; rw [hcp] at ht; exact htpg ht)]
            rw [applyColMods]
            apply applyRowMods_nop
            intro y hy
            rintro ⟨a, b, c, -⟩
            exact htpg ((touchesPage_iff H dy k _).mpr
              ⟨y, List.mem_range.mp hy, a, b, c⟩)
        · rw [listGet_set_other _ _ _ _ (fun he => hje he.symm)]
          by_cases hc : j % W = (dx + (x : ℤ)).toNat ∧
              touchesPage H dy k ((j / W : ℕ) : ℤ) = true
          · obtain ⟨y, hy, ha, hb, hcpg⟩ := (touchesPage_iff H dy k _).mp hc.2
            have hple : ((j / W : ℕ) : ℤ) ≤ openPage H dy k := by
              rw [← hcpg]
              exact openPage_ge H dy k y hy ha hb
            have hpne : ((j / W : ℕ) : ℤ) ≠ openPage H dy k := by
              intro hpe
              apply hje
              have hdivj : j / W = (openPage H dy k).toNat := by omega
              rw [htop.1]
              exact nidx_recover W (dx + (x : ℤ)).toNat (openPage H dy k).toNat j
                hW hc.1 hdivj
            rw [if_pos hc, h5 j hj, if_pos ⟨hc.1, by omega, hc.2⟩]
          · rw [if_neg hc, h5 j hj, if_neg (by rintro ⟨a, -, c⟩; exact hc ⟨a, c⟩)]
    · rw [if_neg hne]
      have heq : R.bb = readJS R.buf R.bi := not_not.mp hne
      have haccb : applyColMods H img dx dy x (openPage H dy k) k
          (listGet buf₀ (dx + (x : ℤ) + (W : ℤ) * openPage H dy k).toNat)
          = listGet buf₀ (dx + (x : ℤ) + (W : ℤ) * openPage H dy k).toNat :=
        Option.some.inj (hbb.symm.trans (heq.trans hreadop))
      constructor
      · show R.buf.length = buf₀.length
        exact h2
      · intro j hj
        show listGet R.buf j = _
        by_cases hc : j % W = (dx + (x : ℤ)).toNat ∧
            touchesPage H dy k ((j / W : ℕ) : ℤ) = true
        · obtain ⟨y, hy, ha, hb, hcpg⟩ := (touchesPage_iff H dy k _).mp hc.2
          have hple : ((j / W : ℕ) : ℤ) ≤ openPage H dy k := by
            rw [← hcpg]
            exact openPage_ge H dy k y hy ha hb
          by_cases hpe : ((j / W : ℕ) : ℤ) = openPage H dy k
          · have hj' : j = (dx + (x : ℤ) + (W : ℤ) * openPage H dy k).toNat := by
              have hdivj : j / W = (openPage H dy k).toNat := by omega
              rw [htop.1]
              exact nidx_recover W (dx + (x : ℤ)).toNat (openPage H dy k).toNat j
                hW hc.1 hdivj
            rw [if_pos hc, hj', hbase0, hcp]
            exact haccb.symm
          · rw [if_pos hc, h5 j hj, if_pos ⟨hc.1, by omega, hc.2⟩]
        · rw [if_neg hc, h5 j hj, if_neg (by rintro ⟨a, -, c⟩; exact hc ⟨a, c⟩)]
  · -- the open page is off screen: `buffByte` is undefined, no final save
    have hbb4 := h4 hop
    have hreadnone : readJS R.buf R.bi = none := by
      rw [h1, readJS, if_neg]
      intro hc
      rw [h2, hlen] at hc
      rcases not_and_or.mp hop with h | h
      · have := zidx_neg W (dx + (x : ℤ)) (openPage H dy k) hdxxW (by omega)
        omega
      · have := zidx_big W (H / 8) (dx + (x : ℤ)) (openPage H dy k) (by omega)
        omega
    rw [colFinish, if_neg (show ¬R.bb ≠ readJS R.buf R.bi from by
      rw [hbb4, hreadnone]; exact fun h => h rfl)]
    constructor
    · show R.buf.length = buf₀.length
      exact h2
    · intro j hj
      show listGet R.buf j = _
      rw [if_neg (by
        rintro ⟨-, c⟩
        exact hop (openPage_touched_range H dy k _ h8 c))]
      have h5j := h5 j hj
      rwa [if_neg (by
        rintro ⟨-, -, c⟩
        exact hop (openPage_touched_range H dy k _ h8 c))] at h5j

theorem colLoop_char (W H : ℕ) (img : Image) (dx dy : ℤ) (x : ℕ)
    (buf₀ : List ℕ) (dirty₀ : List ℤ)
    (hW : 0 < W) (h8 : H % 8 = 0) (hlen : buf₀.length = W * (H / 8))
    (hbytes : ∀ v ∈ buf₀, v < 256)
    (hdxx0 : 0 ≤ dx + (x : ℤ)) (hdxxW : dx + (x : ℤ) < (W : ℤ)) :
    (colLoop W H img dx dy x buf₀ dirty₀).1.length = buf₀.length ∧
    ∀ j : ℕ, j < buf₀.length →
      listGet (colLoop W H img dx dy x buf₀ dirty₀).1 j =
        if j % W = (dx + (x : ℤ)).toNat ∧
            touchesPage H dy img.height ((j / W : ℕ) : ℤ) = true
        then applyColMods H img dx dy x ((j / W : ℕ) : ℤ) img.height (listGet buf₀ j)
        else listGet buf₀ j := by
  rw [colLoop_eq_colRun]
  exact colFinish_char W H img dx dy x buf₀ img.height _ hW h8 hlen hbytes hdxx0 hdxxW
    (colRun_colInv W H img dx dy x buf₀ dirty₀ hW h8 hlen hbytes hdxx0 hdxxW img.height)

theorem colsRun_succ (W H : ℕ) (buf : List ℕ) (img : Image) (dx dy : ℤ) (t : ℕ) :
    colsRun W H buf img dx dy (t + 1) =
      (if dx + (t : ℤ) < 0 ∨ (W : ℤ) ≤ dx + (t : ℤ)
       then colsRun W H buf img dx dy t
       else colLoop W H img dx dy t (colsRun W H buf img dx dy t).1
         (colsRun W H buf img dx dy t).2) := by
  rw [colsRun, colsRun, List.range_succ, List.foldl_append]
  rfl

theorem bytes_of_listGet (l : List ℕ) (h : ∀ j, j < l.length → listGet l j < 256) :
    ∀ v ∈ l, v < 256 := by
  intro v hv
  obtain ⟨i, hi, rfl⟩ := List.mem_iff_getElem.mp hv
  have := h i hi
  rwa [listGet, List.getD_eq_getElem l 0 hi] at this

theorem colsRun_char (W H : ℕ) (buf₀ : List ℕ) (img : Image) (dx dy : ℤ)
    (hW : 0 < W) (h8 : H % 8 = 0) (hlen : buf₀.length = W * (H / 8))
    (hbytes : ∀ v ∈ buf₀, v < 256) :
    ∀ t : ℕ,
      (colsRun W H buf₀ img dx dy t).1.length = buf₀.length ∧
      ∀ j : ℕ, j < buf₀.length →
        listGet (colsRun W H buf₀ img dx dy t).1 j =
          if 0 ≤ ((j % W : ℕ) : ℤ) - dx ∧ ((j % W : ℕ) : ℤ) - dx < (t : ℤ) ∧
              touchesPage H dy img.height ((j / W : ℕ) : ℤ) = true
          then applyColMods H img dx dy (((j % W : ℕ) : ℤ) - dx).toNat
            ((j / W : ℕ) : ℤ) img.height (listGet buf₀ j)
          else listGet buf₀ j := by
  intro t
  induction t with
  | zero =>
    constructor
    · rfl
    · intro j hj
      rw [if_neg (by rintro ⟨h0, hlt, -⟩; omega)]
      rfl
  | succ t ih =>
    rw [colsRun_succ]
    by_cases hx : dx + (t : ℤ) < 0 ∨ (W : ℤ) ≤ dx + (t : ℤ)
    · rw [if_pos hx]
      refine ⟨ih.1, ?_⟩
      intro j hj
      rw [ih.2 j hj]
      have hjW : j % W < W := Nat.mod_lt j hW
      have hne : ((j % W : ℕ) : ℤ) - dx ≠ (t : ℤ) := by
        intro he
        rcases hx with h | h
        · omega
        · omega
      by_cases hc : 0 ≤ ((j % W : ℕ) : ℤ) - dx ∧ ((j % W : ℕ) : ℤ) - dx < (t : ℤ) ∧
          touchesPage H dy img.height ((j / W : ℕ) : ℤ) = true
      · rw [if_pos hc, if_pos ⟨hc.1, by omega, hc.2.2⟩]
      · rw [if_neg hc, if_neg (by rintro ⟨a, b, c⟩; exact hc ⟨a, by omega, c⟩)]
    · rw [if_neg hx]
      have hdxx0 : 0 ≤ dx + (t : ℤ) := by omega
      have hdxxW : dx + (t : ℤ) < (W : ℤ) := by omega
      have hTlen : (colsRun W H buf₀ img dx dy t).1.length = buf₀.length := ih.1
      have hTbytes : ∀ v ∈ (colsRun W H buf₀ img dx dy t).1, v < 256 := by
        apply bytes_of_listGet
        intro j hj'
        have hj : j < buf₀.length := by rwa [hTlen] at hj'
        rw [ih.2 j hj]
        by_cases hc : 0 ≤ ((j % W : ℕ) : ℤ) - dx ∧ ((j % W : ℕ) : ℤ) - dx < (t : ℤ) ∧
            touchesPage H dy img.height ((j / W : ℕ) : ℤ) = true
        · rw [if_pos hc, applyColMods]
          exact applyRowMods_lt_256 H img dx dy _ _ _ _
            (hbytes _ (listGet_mem buf₀ j hj))
        · rw [if_neg hc]
          exact hbytes _ (listGet_mem buf₀ j hj)
      have hchar := colLoop_char W H img dx dy t (colsRun W H buf₀ img dx dy t).1
        (colsRun W H buf₀ img dx dy t).2 hW h8 (hTlen.trans hlen) hTbytes hdxx0 hdxxW
      refine ⟨hchar.1.trans hTlen, ?_⟩
      intro j hj
      have hj' : j < (colsRun W H buf₀ img dx dy t).1.length := by rwa [hTlen]
      rw [hchar.2 j hj']
      by_cases hcj : j % W = (dx + (t : ℤ)).toNat ∧
          touchesPage H dy img.height ((j / W : ℕ) : ℤ) = true
      · rw [if_pos hcj]
        have hcj1 := hcj.1
        have hxj : ((j % W : ℕ) : ℤ) - dx = (t : ℤ) := by omega
        have hbase : listGet (colsRun W H buf₀ img dx dy t).1 j = listGet buf₀ j := by
          rw [ih.2 j hj, if_neg (by rintro ⟨-, hlt, -⟩; omega)]
        rw [hbase, if_pos ⟨by omega, by omega, hcj.2⟩]
        have hxt : (((j % W : ℕ) : ℤ) - dx).toNat = t := by omega
        rw [hxt]
      · rw [if_neg hcj, ih.2 j hj]
        by_cases hc : 0 ≤ ((j % W : ℕ) : ℤ) - dx ∧ ((j % W : ℕ) : ℤ) - dx < (t : ℤ) ∧
            touchesPage H dy img.height ((j / W : ℕ) : ℤ) = true
        · rw [if_pos hc, if_pos ⟨hc.1, by omega, hc.2.2⟩]
        · rw [if_neg hc, if_neg]
          rintro ⟨a, b, c⟩
          by_cases hlt : ((j % W : ℕ) : ℤ) - dx < (t : ℤ)
          · exact hc ⟨a, hlt, c⟩
          · exact hcj ⟨by omega, c⟩

theorem drawRGBAImage_eq_colsRun (W H : ℕ) (buf : List ℕ) (img : Image) (dx dy : ℤ) :
    drawRGBAImage W H buf img dx dy = colsRun W H buf img dx dy img.width := rfl

/-- C7: for every source image, destination offset `(dx, dy)` and in-range
destination pixel of `drawRGBAImage` (source pixel `(sx, sy)`, destination
`(dx + sx, dy + sy)` on screen), if the source pixel's alpha is 0 the
destination framebuffer bit is left exactly as it was before the call,
and if the alpha is nonzero the destination bit ends up on iff
`R ||| G ||| B` of the source pixel is nonzero. -/
theorem drawRGBAImage_alpha_bit (W H : ℕ) (buf : List ℕ) (img : Image)
    (dx dy : ℤ) (sx sy : ℕ)
    (hW : 0 < W) (h8 : H % 8 = 0) (hlen : buf.length = W * (H / 8))
    (hbytes : ∀ v ∈ buf, v < 256)
    (hsx : sx < img.width) (hsy : sy < img.height)
    (hdx0 : 0 ≤ dx + (sx : ℤ)) (hdxW : dx + (sx : ℤ) < (W : ℤ))
    (hdy0 : 0 ≤ dy + (sy : ℤ)) (hdyH : dy + (sy : ℤ) < (H : ℤ)) :
    (rgbaAlpha img sx sy = 0 →
      Nat.testBit
        (listGet (drawRGBAImage W H buf img dx dy).1
          (dx + (sx : ℤ) + (W : ℤ) * ((dy + (sy : ℤ)) / 8)).toNat)
        ((dy + (sy : ℤ)) % 8).toNat
      = Nat.testBit
        (listGet buf (dx + (sx : ℤ) + (W : ℤ) * ((dy + (sy : ℤ)) / 8)).toNat)
        ((dy + (sy : ℤ)) % 8).toNat) ∧
    (rgbaAlpha img sx sy ≠ 0 →
      (Nat.testBit
        (listGet (drawRGBAImage W H buf img dx dy).1
          (dx + (sx : ℤ) + (W : ℤ) * ((dy + (sy : ℤ)) / 8)).toNat)
        ((dy + (sy : ℤ)) % 8).toNat = true
      ↔ rgbaBit img sx sy ≠ 0)) := by
  have hcast : ((H / 8 : ℕ) : ℤ) = (H : ℤ) / 8 := by omega
  have hp0 : 0 ≤ (dy + (sy : ℤ)) / 8 := Int.ediv_nonneg hdy0 (by norm_num)
  have hpH : (dy + (sy : ℤ)) / 8 < ((H / 8 : ℕ) : ℤ) := by omega
  have htj := zidx_toNat W (dx + (sx : ℤ)) ((dy + (sy : ℤ)) / 8) hW hdx0 hdxW hp0
  have htj2 := htj.2.1
  have htj3 := htj.2.2
  have hidx := zidx_in_range W (H / 8) (dx + (sx : ℤ)) ((dy + (sy : ℤ)) / 8)
    hdx0 hdxW hp0 hpH
  have hjlen : (dx + (sx : ℤ) + (W : ℤ) * ((dy + (sy : ℤ)) / 8)).toNat < buf.length := by
    rw [hlen]
    omega
  have hchar := colsRun_char W H buf img dx dy hW h8 hlen hbytes img.width
  have hval := hchar.2 _ hjlen
  have hdivj : (((dx + (sx : ℤ) + (W : ℤ) * ((dy + (sy : ℤ)) / 8)).toNat / W : ℕ) : ℤ)
      = (dy + (sy : ℤ)) / 8 := by
    rw [htj3]
    exact Int.toNat_of_nonneg hp0
  have hxt : ((((dx + (sx : ℤ) + (W : ℤ) * ((dy + (sy : ℤ)) / 8)).toNat % W : ℕ) : ℤ)
      - dx).toNat = sx := by omega
  have htouch : touchesPage H dy img.height
      (((dx + (sx : ℤ) + (W : ℤ) * ((dy + (sy : ℤ)) / 8)).toNat / W : ℕ) : ℤ) = true := by
    rw [hdivj]
    exact (touchesPage_iff H dy img.height ((dy + (sy : ℤ)) / 8)).mpr
      ⟨sy, hsy, hdy0, hdyH, rfl⟩
  rw [if_pos ⟨by omega, by omega, htouch⟩] at hval
  rw [hxt, hdivj] at hval
  rw [drawRGBAImage_eq_colsRun, hval]
  constructor
  · intro halpha
    rw [applyColMods]
    apply applyRowMods_testBit_untouched H img dx dy sx ((dy + (sy : ℤ)) / 8)
      (((dy + (sy : ℤ)) % 8).toNat) (by omega)
    intro y hy h1 h2 h3 h4
    intro heq
    have hysy : y = sy := by omega
    rw [hysy] at h4
    exact h4 halpha
  · intro halpha
    rw [applyColMods]
    have hN : img.height = (sy + 1) + (img.height - (sy + 1)) := by omega
    rw [hN, List.range_add, applyRowMods_append]
    rw [applyRowMods_testBit_untouched H img dx dy sx ((dy + (sy : ℤ)) / 8)
      (((dy + (sy : ℤ)) % 8).toNat) (by omega) _ _ ?hrest]
    case hrest =>
      intro y hy h1 h2 h3 h4
      intro heq
      obtain ⟨i, hi, hyi⟩ := List.mem_map.mp hy
      have hyi' : sy + 1 + i = y := hyi
      omega
    rw [List.range_succ, applyRowMods_append]
    have hsingle : ∀ v, applyRowMods H img dx dy sx ((dy + (sy : ℤ)) / 8) [sy] v
        = rowMod H img dx dy sx ((dy + (sy : ℤ)) / 8) v sy := fun v => rfl
    rw [hsingle]
    simp only [rowMod]
    rw [if_pos ⟨hdy0, hdyH, trivial, halpha⟩]
    rw [pixelMod_testBit_self _ _ _ (by omega)]
    exact decide_eq_true_iff

theorem drawRGBAImage_alpha_bit_witness :
    ((0 < 1 ∧ 8 % 8 = 0 ∧ ([0] : List ℕ).length = 1 * (8 / 8) ∧
        (∀ v ∈ ([0] : List ℕ), v < 256) ∧
        0 < (⟨1, 1, [255, 0, 0, 7]⟩ : Image).width ∧
        0 < (⟨1, 1, [255, 0, 0, 7]⟩ : Image).height ∧
        (0 : ℤ) ≤ 0 + ((0 : ℕ) : ℤ) ∧ (0 : ℤ) + ((0 : ℕ) : ℤ) < ((1 : ℕ) : ℤ) ∧
        (0 : ℤ) ≤ 0 + ((0 : ℕ) : ℤ) ∧ (0 : ℤ) + ((0 : ℕ) : ℤ) < ((8 : ℕ) : ℤ)) ∧
      ((rgbaAlpha ⟨1, 1, [255, 0, 0, 7]⟩ 0 0 = 0 →
        Nat.testBit (listGet (drawRGBAImage 1 8 [0] ⟨1, 1, [255, 0, 0, 7]⟩ 0 0).1 0) 0
          = Nat.testBit (listGet [0] 0) 0) ∧
      (rgbaAlpha ⟨1, 1, [255, 0, 0, 7]⟩ 0 0 ≠ 0 →
        (Nat.testBit (listGet (drawRGBAImage 1 8 [0] ⟨1, 1, [255, 0, 0, 7]⟩ 0 0).1 0) 0 = true
          ↔ rgbaBit ⟨1, 1, [255, 0, 0, 7]⟩ 0 0 ≠ 0)))) :=
  ⟨by decide,
   drawRGBAImage_alpha_bit 1 8 [0] ⟨1, 1, [255, 0, 0, 7]⟩ 0 0 0 0
     (by decide) (by decide) (by decide) (by decide) (by decide) (by decide)
     (by decide) (by decide) (by decide) (by decide)⟩
